import Mathlib

/-!
Verification of the Hugo front-matter cleaning tool (`script.py`).

The tool scans files, extracts a front-matter block delimited by a line of
three dashes or three pluses, decodes it, deletes the keys `tags` and
`categories`, re-encodes, and rewrites the file.

File contents are modelled as `List Char`.  The extractor is a shallow
embedding of the two anchored regular expressions

  yaml pattern:  (---|+++) \r? \n  (.*?)  \r? \n  backreference-to-group-1
  toml pattern:  +++       \r? \n  (.*?)  \r? \n  +++

applied with `re.match` (anchored at position 0), `DOTALL` (the lazy group
may span newlines) and a lazy inner group (the first closing occurrence
wins).  The YAML/TOML decoders and encoders are third-party libraries whose
sources are not part of the repository; they are modelled from the spec
(section 4.2 and section 9 of the specification) as a line-oriented
key/value codec.
-/

/-- The three-dash delimiter token. -/
def dashes : List Char := ['-', '-', '-']

/-- The three-plus delimiter token. -/
def pluses : List Char := ['+', '+', '+']

/-- Format tag returned by the extractor (`'yaml'` / `'toml'` in the source). -/
inductive Fmt where
  | yaml
  | toml
deriving DecidableEq

/-- Scan for the first position where an optional carriage return, a newline
and then the delimiter token occur; this is the closing match of the lazy
group `(.*?)\r?\n\1`.  Returns the inner text before the separator and the
remainder of the input strictly after the delimiter token. -/
def findClose (d : List Char) : List Char → Option (List Char × List Char)
  | [] => none
  | c :: cs =>
    if c = '\r' ∧ (('\n' :: d).isPrefixOf cs) then
      some ([], cs.drop (d.length + 1))
    else if c = '\n' ∧ (d.isPrefixOf cs) then
      some ([], cs.drop d.length)
    else
      match findClose d cs with
      | some (i, b) => some (c :: i, b)
      | none => none

/-- Consume the opening delimiter token anchored at position 0 followed by
`\r\n` or `\n`, returning the rest of the input. -/
def delimNl? (d : List Char) (c : List Char) : Option (List Char) :=
  if d.isPrefixOf c then
    match c.drop d.length with
    | '\r' :: '\n' :: r => some r
    | '\n' :: r => some r
    | _ => none
  else none

/-- Match one delimiter alternative of the front-matter pattern at position 0:
opening token, line break, lazily captured inner text, line break, closing
token.  Returns the inner text (regex group 2) and the remainder of the
content strictly after the closing token (`content[match.end():]`). -/
def matchBlock (d : List Char) (c : List Char) : Option (List Char × List Char) :=
  match delimNl? d c with
  | some r => findClose d r
  | none => none

/-- The TOML pattern of the source: identical in structure to the YAML
pattern but restricted to the `+++` token. -/
def tomlMatch (c : List Char) : Option (List Char × List Char) :=
  matchBlock pluses c

/-- Embedding of `extract_frontmatter`: try the YAML pattern (alternation
`---` then `+++`), then the TOML pattern, mirroring the source's
`if yaml_match: ... elif toml_match: ... return None, content, None, None`.
Returns (front matter, rest of content, delimiter, format tag). -/
def extract_frontmatter (content : List Char) :
    Option (List Char) × List Char × Option (List Char) × Option Fmt :=
  match matchBlock dashes content with
  | some (fm, rest) => (some fm, rest, some dashes, some Fmt.yaml)
  | none =>
    match matchBlock pluses content with
    | some (fm, rest) => (some fm, rest, some pluses, some Fmt.yaml)
    | none =>
      match tomlMatch content with
      | some (fm, rest) => (some fm, rest, some pluses, some Fmt.toml)
      | none => (none, content, none, none)

example :
    extract_frontmatter ['-', '-', '-', '\n', 'a', '\n', '-', '-', '-', 'x'] =
      (some ['a'], ['x'], some dashes, some Fmt.yaml) := by decide

example :
    extract_frontmatter ['+', '+', '+', '\n', 'a', '\n', '+', '+', '+'] =
      (some ['a'], [], some pluses, some Fmt.yaml) := by decide

example :
    extract_frontmatter ['-', '-', '-', '\n', '-', '-', '-', '\n', 'B'] =
      (none, ['-', '-', '-', '\n', '-', '-', '-', '\n', 'B'], none, none) := by decide

example :
    extract_frontmatter ['-', '-', '-', '\n', '-', '-', '-', '\n', '-', '-', '-'] =
      (some ['-', '-', '-'], [], some dashes, some Fmt.yaml) := by decide

example :
    extract_frontmatter ['-', '-', '-', '\r', '\n', 'a', '\r', '\n', '-', '-', '-'] =
      (some ['a'], [], some dashes, some Fmt.yaml) := by decide

example :
    extract_frontmatter ['-', '-', '-', '\n', 'a', '-', '-', '-'] =
      (none, ['-', '-', '-', '\n', 'a', '-', '-', '-'], none, none) := by decide

/-- Whitespace characters stripped by Python's `str.strip()`. -/
def isSpace (c : Char) : Bool :=
  decide (c = ' ' ∨ c = '\t' ∨ c = '\n' ∨ c = '\r' ∨ c = Char.ofNat 11 ∨ c = Char.ofNat 12)

/-- Drop trailing whitespace. -/
def dropTrailSpace (l : List Char) : List Char :=
  (l.reverse.dropWhile isSpace).reverse

/-- Embedding of Python's `str.strip()`. -/
def pyStrip (l : List Char) : List Char :=
  dropTrailSpace (l.dropWhile isSpace)

/-- Split a character list into lines at newline characters (the newline
separators are removed; a trailing newline yields a final empty line). -/
def splitNl : List Char → List (List Char)
  | [] => [[]]
  | c :: rest =>
    if c = '\n' then [] :: splitNl rest
    else
      match splitNl rest with
      | l :: ls => (c :: l) :: ls
      | [] => [[c]]

/-- Join lines with newline separators (inverse of `splitNl`). -/
def joinNl : List (List Char) → List Char
  | [] => []
  | [l] => l
  | l :: ls => l ++ '\n' :: joinNl ls

/-- The single-quote character, used by the modelled YAML codec to quote
string scalars. -/
def quoteC : Char := Char.ofNat 39

/-- Scalar values of the modelled structured data. -/
inductive Value where
  | vstr (s : List Char)
  | vbool (b : Bool)
deriving DecidableEq, Inhabited

/-- Top-level decoded front matter: a mapping (Python `dict`), a sequence, or
a null document (Python `None`, what `yaml.safe_load` returns for an empty
block). -/
inductive Data where
  | dMap (m : List (List Char × Value))
  | dList (l : List (List Char))
  | dNull
deriving DecidableEq

/-- The key `tags`. -/
def tagsK : List Char := ['t', 'a', 'g', 's']

/-- The key `categories`. -/
def catsK : List Char := ['c', 'a', 't', 'e', 'g', 'o', 'r', 'i', 'e', 's']

/-- Characters of the literal `true`. -/
def trueChars : List Char := ['t', 'r', 'u', 'e']

/-- Characters of the literal `false`. -/
def falseChars : List Char := ['f', 'a', 'l', 's', 'e']

/-- Encode a scalar: booleans as bare literals, strings single-quoted. -/
def encVal : Value → List Char
  | Value.vstr s => quoteC :: (s ++ [quoteC])
  | Value.vbool true => trueChars
  | Value.vbool false => falseChars

/-- Parse a scalar: bare boolean literals or a single-quoted string whose
body contains no quote and no newline. -/
def parseVal (v : List Char) : Option Value :=
  if v = trueChars then some (Value.vbool true)
  else if v = falseChars then some (Value.vbool false)
  else
    match v with
    | q :: rest =>
      if q = quoteC ∧ rest.getLast? = some quoteC ∧
          rest.dropLast.all (fun c => decide (c ≠ quoteC ∧ c ≠ '\n')) then
        some (Value.vstr rest.dropLast)
      else none
    | [] => none

/-- Encode one mapping entry as the line `key: value`. -/
def entryLine (e : List Char × Value) : List Char :=
  e.1 ++ ':' :: ' ' :: encVal e.2

/-- Parse one line as a mapping entry `key: value`.  The key is everything
before the first colon and may not start or end with whitespace. -/
def parseEntry (l : List Char) : Option (List Char × Value) :=
  match l.dropWhile (fun c => decide (c ≠ ':')) with
  | ':' :: ' ' :: v =>
    if (l.takeWhile (fun c => decide (c ≠ ':'))).head?.all (fun c => !(isSpace c)) ∧
        (l.takeWhile (fun c => decide (c ≠ ':'))).getLast?.all (fun c => !(isSpace c)) then
      (parseVal v).map (fun w => (l.takeWhile (fun c => decide (c ≠ ':')), w))
    else none
  | _ => none

/-- Parse every line as a mapping entry, failing if any line fails. -/
def parseLines : List (List Char) → Option (List (List Char × Value))
  | [] => some []
  | l :: ls =>
    match parseEntry l, parseLines ls with
    | some e, some es => some (e :: es)
    | _, _ => none

/-- Modelled from the spec: the YAML decoder (`yaml.safe_load`), whose source
is the external PyYAML library, not part of this repository.  Modelled per
section 4.2 / section 9 of the spec as a line-oriented codec: an empty block
is a null document, `{}` is the empty mapping, otherwise every line must be a
`key: value` entry (duplicate keys rejected), or every line a `- ` sequence
item.  Anything else fails to parse (the `yaml.YAMLError` path). -/
def decodeYaml (cs : List Char) : Option Data :=
  if cs = [] then some Data.dNull
  else if cs = ['{', '}'] then some (Data.dMap [])
  else
    match parseLines (splitNl cs) with
    | some es => if (es.map Prod.fst).Nodup then some (Data.dMap es) else none
    | none =>
      if (splitNl cs).all (fun l => (['-', ' ']).isPrefixOf l) then
        some (Data.dList ((splitNl cs).map (fun l => l.drop 2)))
      else none

/-- Modelled from the spec: the YAML encoder (`yaml.dump` with
`sort_keys=False`), external library code.  Keys keep their mapping order;
the empty mapping is rendered flow-style as `{}`; output ends with a
newline. -/
def encodeYaml (m : List (List Char × Value)) : List Char :=
  if m = [] then ['{', '}', '\n']
  else joinNl (m.map entryLine) ++ ['\n']

/-- Parse one line as a TOML entry `key = value`. -/
def parseEntryToml (l : List Char) : Option (List Char × Value) :=
  match l.dropWhile (fun c => decide (c ≠ '=')) with
  | '=' :: ' ' :: v =>
    let k := l.takeWhile (fun c => decide (c ≠ '='))
    if k.getLast? = some ' ' then
      (parseVal v).map (fun w => (k.dropLast, w))
    else none
  | _ => none

/-- Parse every line as a TOML entry, failing if any line fails. -/
def parseLinesToml : List (List Char) → Option (List (List Char × Value))
  | [] => some []
  | l :: ls =>
    match parseEntryToml l, parseLinesToml ls with
    | some e, some es => some (e :: es)
    | _, _ => none

/-- Modelled from the spec: the TOML decoder (`toml.loads`), external library
code.  Provably unreachable in the tool (the format tag is never `toml`),
modelled schematically as `key = value` lines. -/
def decodeToml (cs : List Char) : Option Data :=
  if cs = [] then some (Data.dMap [])
  else
    match parseLinesToml (splitNl cs) with
    | some es => if (es.map Prod.fst).Nodup then some (Data.dMap es) else none
    | none => none

/-- Modelled from the spec: the TOML encoder (`toml.dumps`), external library
code; provably unreachable in the tool. -/
def encodeToml (m : List (List Char × Value)) : List Char :=
  if m = [] then []
  else joinNl (m.map (fun e => e.1 ++ ' ' :: '=' :: ' ' :: encVal e.2)) ++ ['\n']

/-- Dispatch the decoder on the format tag (`if fm_type == 'yaml': ... else:`). -/
def decodeFor : Fmt → List Char → Option Data
  | Fmt.yaml => decodeYaml
  | Fmt.toml => decodeToml

/-- Dispatch the encoder on the format tag. -/
def encodeFor : Fmt → List (List Char × Value) → List Char
  | Fmt.yaml => encodeYaml
  | Fmt.toml => encodeToml

/-- Look up a key in a mapping (first occurrence). -/
def lookupKey (k : List Char) : List (List Char × Value) → Option Value
  | [] => none
  | e :: t => if e.1 = k then some e.2 else lookupKey k t

/-- Membership test for a key, modelling Python's `key in data`. -/
def hasKey (k : List Char) (m : List (List Char × Value)) : Bool :=
  (lookupKey k m).isSome

/-- Delete a key from a mapping, modelling Python's `del data[key]` (dict
keys are unique, and deletion keeps the order of the other entries). -/
def removeKey (k : List Char) (m : List (List Char × Value)) : List (List Char × Value) :=
  m.filter (fun e => decide (e.1 ≠ k))

/-- Lines 54-64 of the source: delete `tags` and `categories` if present and
report whether either deletion happened. -/
def editData (m : List (List Char × Value)) : List (List Char × Value) × Bool :=
  let hasT := hasKey tagsK m
  let m1 := if hasT then removeKey tagsK m else m
  let hasC := hasKey catsK m1
  let m2 := if hasC then removeKey catsK m1 else m1
  (m2, hasT || hasC)

/-- Per-file outcome of the processing loop body. -/
inductive Outcome where
  | skipped
  | modified (nc : List Char)
  | error
deriving DecidableEq

/-- The loop body of `clean_frontmatter` for one file, as a function of the
file's content: extract, decode, delete keys, and on change rebuild the
content as `delimiter + newline + stripped new block + newline + delimiter +
rest`.  A decode failure is the caught-and-logged error path; everything
else that does not write is a skip (`continue`). -/
def processFile (c : List Char) : Outcome :=
  match extract_frontmatter c with
  | (some fm, body, some d, some f) =>
    match decodeFor f fm with
    | none => Outcome.error
    | some (Data.dMap m) =>
      if (editData m).2 then
        Outcome.modified (d ++ '\n' :: (pyStrip (encodeFor f (editData m).1) ++ '\n' :: (d ++ body)))
      else Outcome.skipped
    | some _ => Outcome.skipped
  | _ => Outcome.skipped

/-- Content of a file after the run: rewritten on `modified`, untouched
otherwise. -/
def fileAfter (c : List Char) : List Char :=
  match processFile c with
  | Outcome.modified nc => nc
  | _ => c

/-- Contribution of an outcome to the modified counter. -/
def outcomeDelta : Outcome → Nat
  | Outcome.modified _ => 1
  | _ => 0

/-- Embedding of `clean_frontmatter`: process every file (the directory is
modelled as the list of contents of the matching files), returning the new
contents and the modified count. -/
def clean_frontmatter : List (List Char) → List (List Char) × Nat
  | [] => ([], 0)
  | c :: cs =>
    let r := clean_frontmatter cs
    (fileAfter c :: r.1, outcomeDelta (processFile c) + r.2)

example :
    processFile
      ['-', '-', '-', '\n',
       't', 'i', 't', 'l', 'e', ':', ' ', quoteC, 'x', quoteC, '\n',
       't', 'a', 'g', 's', ':', ' ', quoteC, 'a', quoteC, '\n',
       '-', '-', '-', '\n', 'B'] =
    Outcome.modified
      ['-', '-', '-', '\n',
       't', 'i', 't', 'l', 'e', ':', ' ', quoteC, 'x', quoteC, '\n',
       '-', '-', '-', '\n', 'B'] := by decide

example : processFile ['B', 'o', 'd', 'y'] = Outcome.skipped := by decide

example :
    processFile ['-', '-', '-', '\n', 'o', 'o', 'p', 's', '\n', '-', '-', '-', '\n', 'B'] =
      Outcome.error := by decide

/-- A line separator accepted by the patterns: `\n` or `\r\n`. -/
def sepOk (s : List Char) : Prop := s = ['\n'] ∨ s = ['\r', '\n']

theorem isPrefixOf_eq_true_iff {a b : List Char} :
    a.isPrefixOf b = true ↔ ∃ t, b = a ++ t := by
  rw [ List.isPrefixOf_iff_prefix]
  constructor
  · rintro ⟨t, ht⟩; exact ⟨t, ht.symm⟩
  · rintro ⟨t, rfl⟩; exact ⟨t, rfl⟩

theorem findClose_decomp (d : List Char) :
    ∀ xs i b, findClose d xs = some (i, b) →
      ∃ s, sepOk s ∧ xs = i ++ (s ++ (d ++ b)) := by
  intro xs
  induction xs with
  | nil => intro i b h; simp [findClose] at h
  | cons c cs ih =>
    intro i b h
    simp only [findClose] at h
    split at h
    · rename_i h1
      obtain ⟨hc, hp⟩ := h1
      obtain ⟨t, ht⟩ := isPrefixOf_eq_true_iff.mp hp
      simp only [Option.some.injEq, Prod.mk.injEq] at h
      obtain ⟨hi, hb⟩ := h
      subst hi hc ht
      refine ⟨['\r', '\n'], Or.inr rfl, ?_⟩
      simp [← hb, List.drop_succ_cons, List.drop_left]
    · split at h
      · rename_i h2
        obtain ⟨hc, hp⟩ := h2
        obtain ⟨t, ht⟩ := isPrefixOf_eq_true_iff.mp hp
        simp only [Option.some.injEq, Prod.mk.injEq] at h
        obtain ⟨hi, hb⟩ := h
        subst hi hc ht
        refine ⟨['\n'], Or.inl rfl, ?_⟩
        simp [← hb, List.drop_left]
      · split at h
        · rename_i i' b' heq
          simp only [Option.some.injEq, Prod.mk.injEq] at h
          obtain ⟨hi, hb⟩ := h
          obtain ⟨s, hs, hxs⟩ := ih i' b' heq
          subst hb
          refine ⟨s, hs, ?_⟩
          rw [← hi, hxs]
          simp
        · exact absurd h (by simp)

theorem findClose_min (d : List Char) :
    ∀ xs i b, findClose d xs = some (i, b) →
      ∀ a y, xs = a ++ '\n' :: y → a.length < i.length → ∀ u, y ≠ d ++ u := by
  intro xs
  induction xs with
  | nil => intro i b h; simp [findClose] at h
  | cons c cs ih =>
    intro i b h a y hxs hlen u hyu
    simp only [findClose] at h
    split at h
    · simp only [Option.some.injEq, Prod.mk.injEq] at h
      obtain ⟨hi, -⟩ := h
      rw [← hi] at hlen
      simp at hlen
    · split at h
      · simp only [Option.some.injEq, Prod.mk.injEq] at h
        obtain ⟨hi, -⟩ := h
        rw [← hi] at hlen
        simp at hlen
      · split at h
        · rename_i hn1 hn2 i' b' heq
          simp only [Option.some.injEq, Prod.mk.injEq] at h
          obtain ⟨hi, -⟩ := h
          cases a with
          | nil =>
            simp only [List.nil_append, List.cons.injEq] at hxs
            obtain ⟨hc, hcs⟩ := hxs
            apply hn1
            refine ⟨hc, ?_⟩
            rw [hcs, hyu]
            exact isPrefixOf_eq_true_iff.mpr ⟨u, rfl⟩
          | cons a0 a' =>
            simp only [List.cons_append, List.cons.injEq] at hxs
            obtain ⟨-, hcs⟩ := hxs
            have hlen' : a'.length < i'.length := by
              rw [← hi] at hlen
              simpa using hlen
            exact ih i' b' heq a' y hcs hlen' u hyu
        · exact absurd h (by simp)

theorem findClose_exists (d : List Char) :
    ∀ x s t, sepOk s → findClose d (x ++ (s ++ (d ++ t))) ≠ none := by
  intro x
  induction x with
  | nil =>
    intro s t hs
    rcases hs with rfl | rfl
    · simp only [List.nil_append, List.cons_append, findClose]
      rw [if_neg (by simp), if_pos ⟨trivial, isPrefixOf_eq_true_iff.mpr ⟨t, rfl⟩⟩]
      simp
    · simp only [List.nil_append, List.cons_append, findClose]
      rw [if_pos ⟨trivial, isPrefixOf_eq_true_iff.mpr ⟨t, by simp⟩⟩]
      simp
  | cons c cs ih =>
    intro s t hs
    simp only [List.cons_append, findClose]
    split
    · simp
    · split
      · simp
      · have := ih s t hs
        cases hfc : findClose d (cs ++ (s ++ (d ++ t))) with
        | none => exact absurd hfc this
        | some r => cases r with | mk i b => simp

theorem findClose_boundary (d : List Char) :
    ∀ xs t,
      (∀ a y, xs = a ++ '\n' :: y → ∀ u, y ++ '\n' :: (d ++ t) ≠ d ++ u) →
      xs.getLast? ≠ some '\r' →
      findClose d (xs ++ '\n' :: (d ++ t)) = some (xs, t) := by
  intro xs
  induction xs with
  | nil =>
    intro t _ _
    simp only [List.nil_append, findClose]
    rw [if_neg (by simp), if_pos ⟨trivial, isPrefixOf_eq_true_iff.mpr ⟨t, rfl⟩⟩]
    simp [List.drop_left]
  | cons c cs ih =>
    intro t h1 h2
    simp only [List.cons_append, findClose]
    rw [if_neg, if_neg]
    · have hrec : findClose d (cs ++ '\n' :: (d ++ t)) = some (cs, t) := by
        apply ih
        · intro a y hay u hu
          exact h1 (c :: a) y (by rw [hay]; rfl) u hu
        · cases cs with
          | nil => simp
          | cons w ws =>
            intro hlast
            exact h2 (by rw [List.getLast?_cons_cons]; exact hlast)
      simp only [List.append_eq]
      rw [hrec]
    · rintro ⟨hc, hp⟩
      obtain ⟨u, hu⟩ := isPrefixOf_eq_true_iff.mp hp
      exact h1 [] cs (by rw [hc]; rfl) u (by simpa using hu)
    · rintro ⟨hc, hp⟩
      cases cs with
      | nil =>
        apply h2
        rw [hc]
        rfl
      | cons w ws =>
        obtain ⟨u, hu⟩ := isPrefixOf_eq_true_iff.mp hp
        simp only [List.cons_append, List.append_eq, List.cons.injEq] at hu
        obtain ⟨hw, hws⟩ := hu
        exact h1 [c] ws (by rw [hw]; rfl) u hws

theorem delimNl?_decomp {d c r : List Char} (h : delimNl? d c = some r) :
    ∃ s, sepOk s ∧ c = d ++ (s ++ r) := by
  simp only [delimNl?] at h
  split at h
  · rename_i hp
    obtain ⟨t, rfl⟩ := isPrefixOf_eq_true_iff.mp hp
    rw [List.drop_left] at h
    split at h
    · simp only [Option.some.injEq] at h
      exact ⟨['\r', '\n'], Or.inr rfl, by simp [h]⟩
    · simp only [Option.some.injEq] at h
      exact ⟨['\n'], Or.inl rfl, by simp [h]⟩
    · simp at h
  · simp at h

theorem delimNl?_of_decomp {d s r : List Char} (hs : sepOk s) :
    delimNl? d (d ++ (s ++ r)) = some r := by
  simp only [delimNl?]
  rw [if_pos (isPrefixOf_eq_true_iff.mpr ⟨s ++ r, rfl⟩), List.drop_left]
  rcases hs with rfl | rfl <;> rfl

theorem matchBlock_decomp {d c : List Char} {fm b : List Char}
    (h : matchBlock d c = some (fm, b)) :
    ∃ s₁ s₂, sepOk s₁ ∧ sepOk s₂ ∧ c = d ++ (s₁ ++ (fm ++ (s₂ ++ (d ++ b)))) := by
  simp only [matchBlock] at h
  split at h
  · rename_i r heq
    obtain ⟨s₁, hs₁, hc⟩ := delimNl?_decomp heq
    obtain ⟨s₂, hs₂, hr⟩ := findClose_decomp d r fm b h
    exact ⟨s₁, s₂, hs₁, hs₂, by rw [hc, hr]⟩
  · simp at h

theorem matchBlock_of_decomp {d s₁ x s₂ t : List Char}
    (hs₁ : sepOk s₁) (hs₂ : sepOk s₂) :
    matchBlock d (d ++ (s₁ ++ (x ++ (s₂ ++ (d ++ t))))) ≠ none := by
  simp only [matchBlock]
  rw [delimNl?_of_decomp hs₁]
  exact findClose_exists d x s₂ t hs₂

theorem dashes_not_pre_pluses (z : List Char) :
    dashes.isPrefixOf (pluses ++ z) = false := by
  simp [dashes, pluses, List.isPrefixOf]

theorem pluses_not_pre_dashes (z : List Char) :
    pluses.isPrefixOf (dashes ++ z) = false := by
  simp [dashes, pluses, List.isPrefixOf]

/-- Structure of the extractor's result: either no match (identity tuple) or
a successful match through the YAML pattern, with the matching delimiter. -/
theorem extract_shape (c : List Char) :
    (extract_frontmatter c = (none, c, none, none) ∧
      matchBlock dashes c = none ∧ matchBlock pluses c = none) ∨
    ∃ fm body d, (d = dashes ∨ d = pluses) ∧
      extract_frontmatter c = (some fm, body, some d, some Fmt.yaml) ∧
      matchBlock d c = some (fm, body) := by
  simp only [extract_frontmatter]
  cases h1 : matchBlock dashes c with
  | some r =>
    cases r with
    | mk fm body => exact Or.inr ⟨fm, body, dashes, Or.inl rfl, rfl, h1⟩
  | none =>
    cases h2 : matchBlock pluses c with
    | some r =>
      cases r with
      | mk fm body => exact Or.inr ⟨fm, body, pluses, Or.inr rfl, rfl, h2⟩
    | none =>
      rw [show tomlMatch c = none from h2]
      exact Or.inl ⟨rfl, rfl, rfl⟩

theorem extract_success_inv {c fm body d : List Char} {f : Fmt}
    (h : extract_frontmatter c = (some fm, body, some d, some f)) :
    f = Fmt.yaml ∧ (d = dashes ∨ d = pluses) ∧ matchBlock d c = some (fm, body) := by
  rcases extract_shape c with ⟨h0, -, -⟩ | ⟨fm', body', d', hd', he, hmb⟩
  · rw [h0] at h; simp at h
  · rw [he] at h
    simp only [Prod.mk.injEq, Option.some.injEq] at h
    obtain ⟨hfm, hbody, hd, hf⟩ := h
    subst hfm hbody hd hf
    exact ⟨rfl, hd', hmb⟩

theorem matchBlock_dashes_on_pluses (z : List Char) :
    matchBlock dashes (pluses ++ z) = none := by
  simp [matchBlock, delimNl?, dashes_not_pre_pluses]

theorem extract_fm_ne_none {c : List Char}
    (h : ¬(matchBlock dashes c = none ∧ matchBlock pluses c = none)) :
    (extract_frontmatter c).1 ≠ none := by
  rcases extract_shape c with ⟨-, h1, h2⟩ | ⟨fm, body, d, -, he, -⟩
  · exact absurd ⟨h1, h2⟩ h
  · rw [he]; simp

/-- C1: the extractor never returns the TOML format tag — the YAML pattern's
alternation accepts `+++` blocks first, so every match (in particular every
`+++`-delimited block, witnessed by a TOML-pattern match) is classified
YAML and the TOML decoding branch is dead for every input. -/
theorem c1_plus_block_is_yaml :
    ∀ c, (extract_frontmatter c).2.2.2 ≠ some Fmt.toml ∧
      ((tomlMatch c).isSome = true → (extract_frontmatter c).2.2.2 = some Fmt.yaml) := by
  intro c
  constructor
  · rcases extract_shape c with ⟨h, -, -⟩ | ⟨fm, body, d, -, h, -⟩ <;> rw [h] <;> simp
  · intro hs
    rcases extract_shape c with ⟨-, -, h2⟩ | ⟨fm, body, d, -, h, -⟩
    · rw [tomlMatch, h2] at hs; simp at hs
    · rw [h]

theorem c1_plus_block_is_yaml_witness :
    (tomlMatch ['+', '+', '+', '\n', 'a', '\n', '+', '+', '+']).isSome = true ∧
    (extract_frontmatter ['+', '+', '+', '\n', 'a', '\n', '+', '+', '+']).2.2.2 = some Fmt.yaml :=
  ⟨by decide,
   (c1_plus_block_is_yaml ['+', '+', '+', '\n', 'a', '\n', '+', '+', '+']).2 (by decide)⟩

/-- Remove a trailing carriage return from a line (line endings may be `\n`
or `\r\n` per the spec). -/
def stripCr (l : List Char) : List Char :=
  if l.getLast? = some '\r' then l.dropLast else l

/-- The lines of a content, with `\n` or `\r\n` endings. -/
def specLines (c : List Char) : List (List Char) :=
  (splitNl c).map stripCr

/-- Follows the spec's words for claim C2: the content starts, anchored at
position 0, with a line that is exactly `---` or exactly `+++`, followed by
arbitrary text, followed by a line containing the same delimiter token. -/
def specExtractSucceeds (c : List Char) : Bool :=
  match specLines c with
  | [] => false
  | l0 :: rest =>
    (decide (l0 = dashes) || decide (l0 = pluses)) && rest.any (fun l => decide (l0 <:+: l))

/-- C2 counterexample: on `---\na---` the content opens with the line `---`
and a later line (`a---`) contains the token `---`, so by the claim the
extractor should succeed; the code's pattern requires the closing token to
start right after a newline and finds no match. -/
theorem c2_cex :
    specExtractSucceeds ['-', '-', '-', '\n', 'a', '-', '-', '-'] = true ∧
    (extract_frontmatter ['-', '-', '-', '\n', 'a', '-', '-', '-']).1 = none := by
  constructor
  · decide
  · decide

/-- C2 (amended): the extractor succeeds exactly when the content starts at
position 0 with a line that is exactly `---` or exactly `+++` (ending `\n`
or `\r\n`), followed by text, followed by a line break and then the same
token again — the token must start a line but need not fill it; and the
returned body is the remainder of the content strictly after the closing
token itself (the rest of the closing token's line stays in the body). -/
theorem c2_amended (c : List Char) :
    ((extract_frontmatter c).1 ≠ none ↔
      ∃ d s₁ x s₂ t, (d = dashes ∨ d = pluses) ∧ sepOk s₁ ∧ sepOk s₂ ∧
        c = d ++ (s₁ ++ (x ++ (s₂ ++ (d ++ t))))) ∧
    (∀ fm body d f, extract_frontmatter c = (some fm, body, some d, some f) →
      ∃ s₁ s₂, sepOk s₁ ∧ sepOk s₂ ∧
        c = d ++ (s₁ ++ (fm ++ (s₂ ++ (d ++ body))))) := by
  constructor
  · constructor
    · intro h
      rcases extract_shape c with ⟨h0, -, -⟩ | ⟨fm, body, d, hd, he, hmb⟩
      · rw [h0] at h; simp at h
      · obtain ⟨s₁, s₂, hs₁, hs₂, hc⟩ := matchBlock_decomp hmb
        exact ⟨d, s₁, fm, s₂, body, hd, hs₁, hs₂, hc⟩
    · rintro ⟨d, s₁, x, s₂, t, hd, hs₁, hs₂, rfl⟩
      apply extract_fm_ne_none
      rintro ⟨h1, h2⟩
      rcases hd with rfl | rfl
      · exact matchBlock_of_decomp hs₁ hs₂ h1
      · exact matchBlock_of_decomp hs₁ hs₂ h2
  · intro fm body d f h
    obtain ⟨-, -, hmb⟩ := extract_success_inv h
    exact matchBlock_decomp hmb

theorem c2_amended_witness :
    ∃ s₁ s₂, sepOk s₁ ∧ sepOk s₂ ∧
      ['-', '-', '-', '\n', 'a', '\n', '-', '-', '-', 'x'] =
        dashes ++ (s₁ ++ (['a'] ++ (s₂ ++ (dashes ++ ['x'])))) :=
  (c2_amended ['-', '-', '-', '\n', 'a', '\n', '-', '-', '-', 'x']).2
    ['a'] ['x'] dashes Fmt.yaml (by decide)

/-- C10 counterexample: the content `---\n---\n---` opens with a delimiter
line immediately followed by a delimiter line with no inner line between
them, yet the extractor does report front matter: it takes the second line
as the (lazy) inner text and the third line as the closer. -/
theorem c10_cex :
    ['-', '-', '-', '\n', '-', '-', '-', '\n', '-', '-', '-'] =
      dashes ++ ('\n' :: (dashes ++ ('\n' :: dashes))) ∧
    (extract_frontmatter ['-', '-', '-', '\n', '-', '-', '-', '\n', '-', '-', '-']).1 =
      some ['-', '-', '-'] := by
  constructor
  · decide
  · decide

theorem matchBlock_pluses_on_dashes (z : List Char) :
    matchBlock pluses (dashes ++ z) = none := by
  simp [matchBlock, delimNl?, pluses_not_pre_dashes]

/-- C10 (amended): if the content opens with a delimiter line immediately
followed by the delimiter token again, and the region from that second token
onward contains no line break followed by the token (so the pattern can find
no closing line for a nonempty inner segment), the extractor reports no
front matter and the file is skipped unchanged.  Without the no-further-
occurrence condition the claim fails (see the counterexample): the pattern
needs at least one newline between the delimiter lines, so it can reuse the
second delimiter line as inner text when a third token occurrence exists. -/
theorem c10_amended (d sep rest c : List Char)
    (hd : d = dashes ∨ d = pluses) (hs : sepOk sep)
    (hc : c = d ++ (sep ++ (d ++ rest)))
    (hnoclose : ∀ x s t, sepOk s → d ++ rest ≠ x ++ (s ++ (d ++ t))) :
    extract_frontmatter c = (none, c, none, none) ∧
    processFile c = Outcome.skipped ∧ fileAfter c = c ∧
    outcomeDelta (processFile c) = 0 := by
  have hfc : findClose d (d ++ rest) = none := by
    cases hfc : findClose d (d ++ rest) with
    | none => rfl
    | some r =>
      exfalso
      cases r with
      | mk i b =>
        obtain ⟨s', hs', hdec⟩ := findClose_decomp d (d ++ rest) i b hfc
        exact hnoclose i s' b hs' hdec
  have hmb : matchBlock d c = none := by
    rw [hc, matchBlock, delimNl?_of_decomp hs]
    exact hfc
  have hx : extract_frontmatter c = (none, c, none, none) := by
    rcases extract_shape c with ⟨h0, -, -⟩ | ⟨fm, body, d', hd', he, hmb'⟩
    · exact h0
    · exfalso
      rcases hd with rfl | rfl <;> rcases hd' with rfl | rfl
      · rw [hmb] at hmb'; cases hmb'
      · rw [hc, matchBlock_pluses_on_dashes] at hmb'; cases hmb'
      · rw [hc, matchBlock_dashes_on_pluses] at hmb'; cases hmb'
      · rw [hmb] at hmb'; cases hmb'
  have hp : processFile c = Outcome.skipped := by
    simp only [processFile, hx]
  refine ⟨hx, hp, ?_, ?_⟩
  · simp only [fileAfter, hp]
  · simp only [hp, outcomeDelta]

theorem c10_amended_witness :
    extract_frontmatter ['-', '-', '-', '\n', '-', '-', '-', '\n', 'B'] =
      (none, ['-', '-', '-', '\n', '-', '-', '-', '\n', 'B'], none, none) ∧
    processFile ['-', '-', '-', '\n', '-', '-', '-', '\n', 'B'] = Outcome.skipped ∧
    fileAfter ['-', '-', '-', '\n', '-', '-', '-', '\n', 'B'] =
      ['-', '-', '-', '\n', '-', '-', '-', '\n', 'B'] ∧
    outcomeDelta (processFile ['-', '-', '-', '\n', '-', '-', '-', '\n', 'B']) = 0 :=
  c10_amended dashes ['\n'] ['\n', 'B'] ['-', '-', '-', '\n', '-', '-', '-', '\n', 'B']
    (Or.inl rfl) (Or.inl rfl) (by decide)
    (fun x s t hs heq => by
      have h1 := findClose_exists dashes x s t hs
      rw [← heq] at h1
      exact h1 (by decide))

/-- C5: when the extractor finds no front matter the file is skipped, its
content is unchanged, and it contributes nothing to the modified count. -/
theorem c5_no_frontmatter_skip (c : List Char)
    (h : (extract_frontmatter c).1 = none) :
    processFile c = Outcome.skipped ∧ fileAfter c = c ∧
    outcomeDelta (processFile c) = 0 := by
  have hx : extract_frontmatter c = (none, c, none, none) := by
    rcases extract_shape c with ⟨h0, -, -⟩ | ⟨fm, body, d, -, he, -⟩
    · exact h0
    · rw [he] at h; simp at h
  have hp : processFile c = Outcome.skipped := by
    simp only [processFile, hx]
  exact ⟨hp, by simp only [fileAfter, hp], by simp only [hp, outcomeDelta]⟩

theorem c5_no_frontmatter_skip_witness :
    processFile ['B', 'o', 'd', 'y'] = Outcome.skipped ∧
    fileAfter ['B', 'o', 'd', 'y'] = ['B', 'o', 'd', 'y'] ∧
    outcomeDelta (processFile ['B', 'o', 'd', 'y']) = 0 :=
  c5_no_frontmatter_skip ['B', 'o', 'd', 'y'] (by decide)

/-- C6: when the decoded front matter is a mapping containing neither `tags`
nor `categories`, the file is skipped, its content is unchanged, and it is
not counted as modified. -/
theorem c6_no_keys_skip (c fm body d : List Char) (f : Fmt)
    (m : List (List Char × Value))
    (hx : extract_frontmatter c = (some fm, body, some d, some f))
    (hdec : decodeFor f fm = some (Data.dMap m))
    (ht : lookupKey tagsK m = none) (hc2 : lookupKey catsK m = none) :
    processFile c = Outcome.skipped ∧ fileAfter c = c ∧
    outcomeDelta (processFile c) = 0 := by
  have hp : processFile c = Outcome.skipped := by
    simp [processFile, hx, hdec, editData, hasKey, ht, hc2]
  exact ⟨hp, by simp only [fileAfter, hp], by simp only [hp, outcomeDelta]⟩

theorem c6_no_keys_skip_witness :
    processFile ['-', '-', '-', '\n', 't', 'i', 't', 'l', 'e', ':', ' ',
        quoteC, 'x', quoteC, '\n', '-', '-', '-', '\n', 'B'] = Outcome.skipped ∧
    fileAfter ['-', '-', '-', '\n', 't', 'i', 't', 'l', 'e', ':', ' ',
        quoteC, 'x', quoteC, '\n', '-', '-', '-', '\n', 'B'] =
      ['-', '-', '-', '\n', 't', 'i', 't', 'l', 'e', ':', ' ',
        quoteC, 'x', quoteC, '\n', '-', '-', '-', '\n', 'B'] ∧
    outcomeDelta (processFile ['-', '-', '-', '\n', 't', 'i', 't', 'l', 'e', ':', ' ',
        quoteC, 'x', quoteC, '\n', '-', '-', '-', '\n', 'B']) = 0 :=
  c6_no_keys_skip
    ['-', '-', '-', '\n', 't', 'i', 't', 'l', 'e', ':', ' ',
      quoteC, 'x', quoteC, '\n', '-', '-', '-', '\n', 'B']
    ['t', 'i', 't', 'l', 'e', ':', ' ', quoteC, 'x', quoteC]
    ['\n', 'B'] dashes Fmt.yaml
    [(['t', 'i', 't', 'l', 'e'], Value.vstr ['x'])]
    (by decide) (by decide) (by decide) (by decide)

theorem clean_append (l₁ l₂ : List (List Char)) :
    clean_frontmatter (l₁ ++ l₂) =
      ((clean_frontmatter l₁).1 ++ (clean_frontmatter l₂).1,
       (clean_frontmatter l₁).2 + (clean_frontmatter l₂).2) := by
  induction l₁ with
  | nil => simp [clean_frontmatter]
  | cons c cs ih => simp [clean_frontmatter, ih, Nat.add_assoc]

/-- C8: a front-matter block that fails to decode yields the error outcome:
the file's content is untouched, it contributes nothing to the modified
count, and the surrounding run still processes every other file and returns
their total. -/
theorem c8_decode_error (c fm body d : List Char) (f : Fmt)
    (hx : extract_frontmatter c = (some fm, body, some d, some f))
    (hdec : decodeFor f fm = none) :
    processFile c = Outcome.error ∧ fileAfter c = c ∧
    outcomeDelta (processFile c) = 0 ∧
    (∀ pre post, clean_frontmatter (pre ++ c :: post) =
      ((clean_frontmatter pre).1 ++ c :: (clean_frontmatter post).1,
       (clean_frontmatter pre).2 + (clean_frontmatter post).2)) := by
  have hp : processFile c = Outcome.error := by
    simp [processFile, hx, hdec]
  have hfa : fileAfter c = c := by simp only [fileAfter, hp]
  refine ⟨hp, hfa, by simp only [hp, outcomeDelta], ?_⟩
  intro pre post
  rw [clean_append]
  simp [clean_frontmatter, hfa, hp, outcomeDelta]

theorem c8_decode_error_witness :
    processFile ['-', '-', '-', '\n', 'x', '\n', '-', '-', '-', '\n', 'B'] = Outcome.error ∧
    fileAfter ['-', '-', '-', '\n', 'x', '\n', '-', '-', '-', '\n', 'B'] =
      ['-', '-', '-', '\n', 'x', '\n', '-', '-', '-', '\n', 'B'] ∧
    outcomeDelta (processFile ['-', '-', '-', '\n', 'x', '\n', '-', '-', '-', '\n', 'B']) = 0 ∧
    clean_frontmatter [['-', '-', '-', '\n', 'x', '\n', '-', '-', '-', '\n', 'B']] =
      ([['-', '-', '-', '\n', 'x', '\n', '-', '-', '-', '\n', 'B']], 0) := by
  have h := c8_decode_error
    ['-', '-', '-', '\n', 'x', '\n', '-', '-', '-', '\n', 'B']
    ['x'] ['\n', 'B'] dashes Fmt.yaml (by decide) (by decide)
  refine ⟨h.1, h.2.1, h.2.2.1, ?_⟩
  have h4 := h.2.2.2 [] []
  simpa [clean_frontmatter] using h4

/-- Inversion of a modified outcome: the exact reconstruction performed. -/
theorem processFile_modified_inv {c nc : List Char}
    (h : processFile c = Outcome.modified nc) :
    ∃ fm body d m, (d = dashes ∨ d = pluses) ∧
      extract_frontmatter c = (some fm, body, some d, some Fmt.yaml) ∧
      decodeYaml fm = some (Data.dMap m) ∧
      (editData m).2 = true ∧
      nc = d ++ '\n' :: (pyStrip (encodeYaml (editData m).1) ++ '\n' :: (d ++ body)) := by
  rcases extract_shape c with ⟨h0, -, -⟩ | ⟨fm, body, d, hd, he, -⟩
  · simp only [processFile, h0] at h
    cases h
  · simp only [processFile, he] at h
    split at h
    · cases h
    · rename_i m hdec
      split at h
      · rename_i hflag
        cases h
        exact ⟨fm, body, d, m, hd, he, hdec, hflag, rfl⟩
      · cases h
    · cases h

/-- C7: whenever a file is rewritten, the new content is exactly the opening
delimiter captured during extraction, a newline, the whitespace-trimmed
re-encoded front matter, a newline, that same opening delimiter, and then
the original body unchanged — and the format is always YAML, so this also
covers `+++`-opened blocks parsed as YAML. -/
theorem c7_rewrite_shape (c nc : List Char)
    (h : processFile c = Outcome.modified nc) :
    ∃ fm body d m,
      extract_frontmatter c = (some fm, body, some d, some Fmt.yaml) ∧
      decodeYaml fm = some (Data.dMap m) ∧
      nc = d ++ '\n' :: (pyStrip (encodeYaml (editData m).1) ++ '\n' :: (d ++ body)) := by
  obtain ⟨fm, body, d, m, -, he, hdec, -, hnc⟩ := processFile_modified_inv h
  exact ⟨fm, body, d, m, he, hdec, hnc⟩

theorem c7_rewrite_shape_witness :
    ∃ fm body d m,
      extract_frontmatter ['+', '+', '+', '\n', 't', 'a', 'g', 's', ':', ' ',
          quoteC, 'x', quoteC, '\n', 't', ':', ' ', quoteC, 'y', quoteC, '\n',
          '+', '+', '+', '\n', 'B'] = (some fm, body, some d, some Fmt.yaml) ∧
      decodeYaml fm = some (Data.dMap m) ∧
      ['+', '+', '+', '\n', 't', ':', ' ', quoteC, 'y', quoteC, '\n',
          '+', '+', '+', '\n', 'B'] =
        d ++ '\n' :: (pyStrip (encodeYaml (editData m).1) ++ '\n' :: (d ++ body)) :=
  c7_rewrite_shape
    ['+', '+', '+', '\n', 't', 'a', 'g', 's', ':', ' ', quoteC, 'x', quoteC, '\n',
     't', ':', ' ', quoteC, 'y', quoteC, '\n', '+', '+', '+', '\n', 'B']
    ['+', '+', '+', '\n', 't', ':', ' ', quoteC, 'y', quoteC, '\n',
     '+', '+', '+', '\n', 'B']
    (by decide)

theorem splitNl_ne_nil (xs : List Char) : splitNl xs ≠ [] := by
  cases xs with
  | nil => simp [splitNl]
  | cons c rest =>
    simp only [splitNl]
    split
    · simp
    · split <;> simp

theorem joinNl_split (xs : List Char) : joinNl (splitNl xs) = xs := by
  induction xs with
  | nil => rfl
  | cons c rest ih =>
    simp only [splitNl]
    split
    · rename_i hc
      subst hc
      cases hs : splitNl rest with
      | nil => exact absurd hs (splitNl_ne_nil rest)
      | cons l ls =>
        rw [← hs]
        show joinNl ([] :: splitNl rest) = '\n' :: rest
        rw [hs]
        show [] ++ '\n' :: joinNl (l :: ls) = '\n' :: rest
        rw [← hs, ih]
        rfl
    · cases hs : splitNl rest with
      | nil => exact absurd hs (splitNl_ne_nil rest)
      | cons l ls =>
        rw [hs] at ih
        cases ls with
        | nil =>
          show joinNl [c :: l] = c :: rest
          show c :: l = c :: rest
          rw [List.cons.injEq]
          exact ⟨rfl, ih⟩
        | cons l2 ls' =>
          show joinNl ((c :: l) :: l2 :: ls') = c :: rest
          show (c :: l) ++ '\n' :: joinNl (l2 :: ls') = c :: rest
          rw [List.cons_append, List.cons.injEq]
          exact ⟨rfl, ih⟩

theorem mem_splitNl_no_nl (xs : List Char) : ∀ l ∈ splitNl xs, '\n' ∉ l := by
  induction xs with
  | nil => intro l hl; simp [splitNl] at hl; simp [hl]
  | cons c rest ih =>
    intro l hl
    simp only [splitNl] at hl
    split at hl
    · rcases List.mem_cons.mp hl with rfl | h
      · simp
      · exact ih l h
    · rename_i hc
      cases hs : splitNl rest with
      | nil => exact absurd hs (splitNl_ne_nil rest)
      | cons l0 ls =>
        rw [hs] at hl
        rcases List.mem_cons.mp hl with rfl | h
        · intro hmem
          rcases List.mem_cons.mp hmem with rfl | h2
          · exact hc rfl
          · exact ih l0 (by rw [hs]; exact List.mem_cons_self l0 ls) h2
        · exact ih l (by rw [hs]; exact List.mem_cons_of_mem l0 h)

theorem joinNl_cons_exists (l : List Char) (ls : List (List Char)) :
    ∃ z, joinNl (l :: ls) = l ++ z := by
  cases ls with
  | nil => exact ⟨[], by simp [joinNl]⟩
  | cons l2 ls' => exact ⟨'\n' :: joinNl (l2 :: ls'), rfl⟩

theorem splitNl_cons_no_nl (c : Char) (hc : c ≠ '\n') (xs : List Char) :
    ∀ l ls, splitNl xs = l :: ls → splitNl (c :: xs) = (c :: l) :: ls := by
  intro l ls hs
  simp only [splitNl]
  rw [if_neg hc, hs]

theorem splitNl_no_nl_self : ∀ (l : List Char), '\n' ∉ l → splitNl l = [l]
  | [], _ => rfl
  | c :: cl, hl => by
    have hc : c ≠ '\n' := fun h => hl (by rw [h]; exact List.mem_cons_self _ _)
    have hcl : '\n' ∉ cl := fun h => hl (List.mem_cons_of_mem c h)
    exact splitNl_cons_no_nl c hc cl cl [] (splitNl_no_nl_self cl hcl)

theorem splitNl_append_no_nl :
    ∀ (l : List Char), '\n' ∉ l → ∀ xs, splitNl (l ++ '\n' :: xs) = l :: splitNl xs
  | [], _, xs => by simp [splitNl]
  | c :: cl, hl, xs => by
    have hc : c ≠ '\n' := fun h => hl (by rw [h]; exact List.mem_cons_self _ _)
    have hcl : '\n' ∉ cl := fun h => hl (List.mem_cons_of_mem c h)
    exact splitNl_cons_no_nl c hc (cl ++ '\n' :: xs) cl (splitNl xs)
      (splitNl_append_no_nl cl hcl xs)

theorem split_join :
    ∀ (ls : List (List Char)), ls ≠ [] → (∀ l ∈ ls, '\n' ∉ l) →
      splitNl (joinNl ls) = ls
  | [], h0, _ => absurd rfl h0
  | [l], _, h1 => by
    show splitNl l = [l]
    exact splitNl_no_nl_self l (h1 l (List.mem_cons_self _ _))
  | l :: l2 :: ls2, _, h1 => by
    show splitNl (l ++ '\n' :: joinNl (l2 :: ls2)) = l :: l2 :: ls2
    rw [splitNl_append_no_nl l (h1 l (List.mem_cons_self _ _))]
    rw [split_join (l2 :: ls2) (by simp) (fun x hx => h1 x (List.mem_cons_of_mem l hx))]

theorem splitNl_append_nl : ∀ u v : List Char, splitNl (u ++ '\n' :: v) = splitNl u ++ splitNl v
  | [], v => by simp [splitNl]
  | c :: u2, v => by
    by_cases hc : c = '\n'
    · subst hc
      have e1 : ∀ x : List Char, splitNl ('\n' :: x) = [] :: splitNl x := fun x => by
        simp [splitNl]
      rw [List.cons_append, e1, e1, splitNl_append_nl u2 v]
      rfl
    · cases hs : splitNl u2 with
      | nil => exact absurd hs (splitNl_ne_nil u2)
      | cons l0 ls0 =>
        have h1 : splitNl (u2 ++ '\n' :: v) = l0 :: (ls0 ++ splitNl v) := by
          rw [splitNl_append_nl u2 v, hs]
          rfl
        rw [List.cons_append,
          splitNl_cons_no_nl c hc (u2 ++ '\n' :: v) l0 (ls0 ++ splitNl v) h1,
          splitNl_cons_no_nl c hc u2 l0 ls0 hs]
        rfl

theorem joinNl_split_nl (ls : List (List Char)) (h0 : ls ≠ [])
    (h : ∀ l ∈ ls, '\n' ∉ l) (a y : List Char)
    (heq : joinNl ls = a ++ '\n' :: y) :
    ∃ p l q, ls = p ++ l :: q ∧ p ≠ [] ∧ ∃ z, y = l ++ z := by
  have hls : ls = splitNl a ++ splitNl y := by
    rw [← split_join ls h0 h, heq, splitNl_append_nl]
  cases hsy : splitNl y with
  | nil => exact absurd hsy (splitNl_ne_nil y)
  | cons l q =>
    refine ⟨splitNl a, l, q, by rw [hls, hsy], splitNl_ne_nil a, ?_⟩
    have hy : joinNl (l :: q) = y := by rw [← hsy, joinNl_split]
    obtain ⟨z, hz⟩ := joinNl_cons_exists l q
    exact ⟨z, by rw [← hy, hz]⟩

theorem joinNl_append : ∀ p q : List (List Char), p ≠ [] → q ≠ [] →
    joinNl (p ++ q) = joinNl p ++ '\n' :: joinNl q
  | [], _, h, _ => absurd rfl h
  | [l], q, _, hq => by
    cases q with
    | nil => exact absurd rfl hq
    | cons l2 q2 => rfl
  | l :: l2 :: p2, q, _, hq => by
    have ih := joinNl_append (l2 :: p2) q (by simp) hq
    show l ++ '\n' :: joinNl ((l2 :: p2) ++ q) = (l ++ '\n' :: joinNl (l2 :: p2)) ++ '\n' :: joinNl q
    rw [ih]
    simp

theorem joinNl_ne_nil (l : List Char) (ls : List (List Char)) (hl : l ≠ []) :
    joinNl (l :: ls) ≠ [] := by
  obtain ⟨z, hz⟩ := joinNl_cons_exists l ls
  rw [hz]
  simp [hl]

theorem joinNl_getLast :
    ∀ ls : List (List Char), ls ≠ [] → (∀ l ∈ ls, l ≠ []) →
      ∀ last, ls.getLast? = some last → (joinNl ls).getLast? = last.getLast?
  | [], h0, _, _, _ => absurd rfl h0
  | [l], _, _, last, hl => by
    simp only [List.getLast?_singleton, Option.some.injEq] at hl
    subst hl
    rfl
  | l :: l2 :: ls2, _, hne, last, hl => by
    have hrec := joinNl_getLast (l2 :: ls2) (by simp)
      (fun x hx => hne x (List.mem_cons_of_mem l hx)) last
      (by rw [← hl, List.getLast?_cons_cons])
    show (l ++ '\n' :: joinNl (l2 :: ls2)).getLast? = last.getLast?
    have hj : joinNl (l2 :: ls2) ≠ [] :=
      joinNl_ne_nil l2 ls2 (hne l2 (List.mem_cons_of_mem l (List.mem_cons_self _ _)))
    have h2 : ('\n' :: joinNl (l2 :: ls2)).getLast? = (joinNl (l2 :: ls2)).getLast? := by
      cases hjj : joinNl (l2 :: ls2) with
      | nil => exact absurd hjj hj
      | cons w ws => rw [List.getLast?_cons_cons]
    rw [List.getLast?_append, h2, hrec]
    have hlastmem : last ∈ l :: l2 :: ls2 := by
      have h3 := List.getLast?_eq_getLast (l :: l2 :: ls2) (by simp)
      rw [h3, Option.some.injEq] at hl
      rw [← hl]
      exact List.getLast_mem (by simp)
    have hlne : last ≠ [] := hne last hlastmem
    obtain ⟨a, ha⟩ : ∃ a, last.getLast? = some a := by
      cases last with
      | nil => exact absurd rfl hlne
      | cons w ws => exact ⟨_, List.getLast?_eq_getLast _ (by simp)⟩
    rw [ha]
    rfl

/-- Scalar well-formedness: string bodies contain no quote and no newline. -/
def wfVal : Value → Prop
  | Value.vstr s => s.all (fun c => decide (c ≠ quoteC ∧ c ≠ '\n')) = true
  | Value.vbool _ => True

/-- Entry well-formedness: exactly the guarantees the line parser enforces. -/
def wfEntry (e : List Char × Value) : Prop :=
  (':' ∉ e.1) ∧ ('\n' ∉ e.1) ∧
  e.1.head?.all (fun c => !(isSpace c)) = true ∧
  e.1.getLast?.all (fun c => !(isSpace c)) = true ∧
  wfVal e.2

theorem encVal_no_nl {v : Value} (h : wfVal v) : '\n' ∉ encVal v := by
  cases v with
  | vstr s =>
    simp only [encVal]
    intro hmem
    rcases List.mem_cons.mp hmem with heq | hmem2
    · exact absurd heq (by decide)
    · rcases List.mem_append.mp hmem2 with hs | hq
      · have := List.all_eq_true.mp h _ hs
        simp at this
      · rcases List.mem_singleton.mp hq with heq
        exact absurd heq (by decide)
  | vbool b => cases b <;> decide

theorem encVal_getLast (v : Value) :
    (encVal v).getLast? = some quoteC ∨ (encVal v).getLast? = some 'e' := by
  cases v with
  | vstr s =>
    left
    show (quoteC :: (s ++ [quoteC])).getLast? = some quoteC
    rw [show quoteC :: (s ++ [quoteC]) = (quoteC :: s) ++ [quoteC] from rfl]
    exact List.getLast?_concat _
  | vbool b => cases b <;> [right; right] <;> decide

theorem parseVal_encVal {v : Value} (h : wfVal v) : parseVal (encVal v) = some v := by
  cases v with
  | vstr s =>
    show parseVal (quoteC :: (s ++ [quoteC])) = some (Value.vstr s)
    have h1 : quoteC :: (s ++ [quoteC]) ≠ trueChars := by
      intro heq
      injection heq with h1 _
      exact absurd h1 (by decide)
    have h2 : quoteC :: (s ++ [quoteC]) ≠ falseChars := by
      intro heq
      injection heq with h1 _
      exact absurd h1 (by decide)
    simp only [parseVal, if_neg h1, if_neg h2]
    rw [if_pos ⟨trivial, List.getLast?_concat _, by rw [List.dropLast_concat]; exact h⟩]
    rw [List.dropLast_concat]
  | vbool b => cases b <;> decide

theorem takeWhile_split {p : Char → Bool} :
    ∀ k : List Char, (∀ c ∈ k, p c = true) → ∀ x rest, p x = false →
      (k ++ x :: rest).takeWhile p = k ∧ (k ++ x :: rest).dropWhile p = x :: rest
  | [], _, x, rest, hx => by
    simp [List.takeWhile_cons, List.dropWhile_cons, hx]
  | c :: k2, hk, x, rest, hx => by
    have hc := hk c (List.mem_cons_self _ _)
    have ih := takeWhile_split k2 (fun a ha => hk a (List.mem_cons_of_mem c ha)) x rest hx
    simp [List.takeWhile_cons, List.dropWhile_cons, hc, ih.1, ih.2]

theorem parseEntry_entryLine {e : List Char × Value} (h : wfEntry e) :
    parseEntry (entryLine e) = some e := by
  obtain ⟨k, v⟩ := e
  obtain ⟨hcol, hnl, hh, hl, hv⟩ := h
  have hp : ∀ c ∈ k, (fun c => decide (c ≠ ':')) c = true := fun c hc => by
    simp only [decide_eq_true_eq]
    exact fun heq => hcol (heq ▸ hc)
  have hx : (fun c => decide (c ≠ ':')) ':' = false := by simp
  obtain ⟨ht, hd⟩ := takeWhile_split k hp ':' (' ' :: encVal v) hx
  show parseEntry (k ++ ':' :: ' ' :: encVal v) = some (k, v)
  simp only [parseEntry, hd, ht]
  rw [if_pos ⟨hh, hl⟩, parseVal_encVal hv]
  rfl

theorem parseVal_props {s : List Char} {v : Value} (h : parseVal s = some v) :
    wfVal v := by
  simp only [parseVal] at h
  split at h
  · cases h; trivial
  · split at h
    · cases h; trivial
    · split at h
      · split at h
        · rename_i hcond
          cases h
          exact hcond.2.2
        · cases h
      · cases h

theorem parseEntry_props {l : List Char} {e : List Char × Value}
    (h : parseEntry l = some e) :
    (':' ∉ e.1) ∧
    e.1.head?.all (fun c => !(isSpace c)) = true ∧
    e.1.getLast?.all (fun c => !(isSpace c)) = true ∧
    wfVal e.2 ∧ (∃ z, l = e.1 ++ ':' :: z) := by
  simp only [parseEntry] at h
  split at h
  · rename_i v hdw
    split at h
    · rename_i hcond
      cases hpv : parseVal v with
      | none => rw [hpv] at h; cases h
      | some w =>
        rw [hpv] at h
        simp only [Option.map_some', Option.some.injEq] at h
        subst h
        refine ⟨?_, hcond.1, hcond.2, parseVal_props hpv, ⟨' ' :: v, ?_⟩⟩
        · intro hmem
          have := List.mem_takeWhile_imp hmem
          simp at this
        · rw [← hdw]
          exact (List.takeWhile_append_dropWhile _ l).symm
    · cases h
  · cases h

theorem parseLines_mem : ∀ {ls es}, parseLines ls = some es →
    ∀ e ∈ es, ∃ l ∈ ls, parseEntry l = some e := by
  intro ls
  induction ls with
  | nil =>
    intro es h e he
    simp only [parseLines, Option.some.injEq] at h
    subst h
    simp at he
  | cons l ls2 ih =>
    intro es h e he
    simp only [parseLines] at h
    split at h
    · rename_i e0 es' h1 h2
      cases h
      rcases List.mem_cons.mp he with rfl | hmem
      · exact ⟨l, List.mem_cons_self _ _, h1⟩
      · obtain ⟨l', hl', heq⟩ := ih h2 e hmem
        exact ⟨l', List.mem_cons_of_mem l hl', heq⟩
    · cases h

theorem parseLines_map : ∀ {m : List (List Char × Value)},
    (∀ e ∈ m, parseEntry (entryLine e) = some e) →
    parseLines (m.map entryLine) = some m := by
  intro m
  induction m with
  | nil => intro _; rfl
  | cons e m2 ih =>
    intro h
    have h1 := h e (List.mem_cons_self _ _)
    have h2 := ih (fun x hx => h x (List.mem_cons_of_mem _ hx))
    simp only [List.map_cons, parseLines, h1, h2]

theorem parseLines_split : ∀ {ls es}, parseLines ls = some es →
    ∀ {pre e post}, es = pre ++ e :: post →
      ∃ lp lmid lq, ls = lp ++ lmid :: lq ∧ parseEntry lmid = some e ∧
        lp.length = pre.length := by
  intro ls
  induction ls with
  | nil =>
    intro es h pre e post hsplit
    simp only [parseLines, Option.some.injEq] at h
    subst h
    exact absurd hsplit.symm (by simp)
  | cons l ls2 ih =>
    intro es h pre e post hsplit
    simp only [parseLines] at h
    split at h
    · rename_i e0 es' h1 h2
      cases h
      cases pre with
      | nil =>
        simp only [List.nil_append, List.cons.injEq] at hsplit
        obtain ⟨rfl, -⟩ := hsplit
        exact ⟨[], l, ls2, rfl, h1, rfl⟩
      | cons p0 pre' =>
        simp only [List.cons_append, List.cons.injEq] at hsplit
        obtain ⟨-, hsplit'⟩ := hsplit
        obtain ⟨lp, lmid, lq, hls, heq, hlen⟩ := ih h2 hsplit'
        exact ⟨l :: lp, lmid, lq, by rw [hls]; rfl, heq, by simp [hlen]⟩
    · cases h

theorem decodeYaml_dMap_inv {cs : List Char} {m : List (List Char × Value)}
    (h : decodeYaml cs = some (Data.dMap m)) :
    (cs = ['{', '}'] ∧ m = []) ∨
    (cs ≠ [] ∧ cs ≠ ['{', '}'] ∧ parseLines (splitNl cs) = some m ∧
      (m.map Prod.fst).Nodup) := by
  simp only [decodeYaml] at h
  split at h
  · cases h
  · split at h
    · rename_i h1 h2
      cases h
      exact Or.inl ⟨h2, rfl⟩
    · rename_i h1 h2
      split at h
      · rename_i es hpl
        split at h
        · rename_i hnd
          cases h
          exact Or.inr ⟨h1, h2, hpl, hnd⟩
        · cases h
      · split at h
        · cases h
        · cases h

theorem decodeYaml_entries_wf {cs : List Char} {m : List (List Char × Value)}
    (h : decodeYaml cs = some (Data.dMap m)) : ∀ e ∈ m, wfEntry e := by
  rcases decodeYaml_dMap_inv h with ⟨-, rfl⟩ | ⟨-, -, hpl, -⟩
  · simp
  · intro e he
    obtain ⟨l, hl, heq⟩ := parseLines_mem hpl e he
    obtain ⟨hcol, hh, hlast, hv, z, hz⟩ := parseEntry_props heq
    refine ⟨hcol, ?_, hh, hlast, hv⟩
    intro hmem
    apply mem_splitNl_no_nl cs l hl
    rw [hz]
    exact List.mem_append_left _ hmem

theorem decodeYaml_nodup {cs : List Char} {m : List (List Char × Value)}
    (h : decodeYaml cs = some (Data.dMap m)) : (m.map Prod.fst).Nodup := by
  rcases decodeYaml_dMap_inv h with ⟨-, rfl⟩ | ⟨-, -, -, hnd⟩
  · simp
  · exact hnd

theorem extract_fm_min {c fm body d : List Char} {f : Fmt}
    (hx : extract_frontmatter c = (some fm, body, some d, some f)) :
    ∀ a y, fm = a ++ '\n' :: y → ∀ w, y ≠ d ++ w := by
  obtain ⟨-, -, hmb⟩ := extract_success_inv hx
  simp only [matchBlock] at hmb
  split at hmb
  · rename_i r hr
    intro a y hfm w hw
    obtain ⟨s2, hs2, hrdec⟩ := findClose_decomp d r fm body hmb
    have hr2 : r = a ++ '\n' :: (y ++ (s2 ++ (d ++ body))) := by
      rw [hrdec, hfm]
      simp
    have hlen : a.length < fm.length := by
      rw [hfm, List.length_append]
      simp
    have hmin := findClose_min d r fm body hmb a _ hr2 hlen (w ++ (s2 ++ (d ++ body)))
    apply hmin
    rw [hw]
    simp
  · cases hmb

theorem decode_tail_keys {c fm body d : List Char} {f : Fmt}
    {m : List (List Char × Value)}
    (hx : extract_frontmatter c = (some fm, body, some d, some f))
    (hdec : decodeYaml fm = some (Data.dMap m)) :
    ∀ e ∈ m.tail, ∀ w, e.1 ≠ d ++ w := by
  intro e he w hw
  obtain ⟨m0, mt, rfl⟩ : ∃ m0 mt, m = m0 :: mt := by
    cases m with
    | nil => simp at he
    | cons m0 mt => exact ⟨m0, mt, rfl⟩
  simp only [List.tail_cons] at he
  obtain ⟨s, t, hst⟩ := List.append_of_mem he
  rcases decodeYaml_dMap_inv hdec with ⟨-, heq⟩ | ⟨-, -, hpl, -⟩
  · simp at heq
  · have hsplit : m0 :: mt = (m0 :: s) ++ e :: t := by rw [hst]; rfl
    obtain ⟨lp, lmid, lq, hls, hpe, hlen⟩ := parseLines_split hpl hsplit
    have hlp : lp ≠ [] := by
      intro h0
      rw [h0] at hlen
      simp at hlen
    have hfm : fm = joinNl (lp ++ lmid :: lq) := by rw [← hls, joinNl_split]
    have hjoin : joinNl (lp ++ lmid :: lq) = joinNl lp ++ '\n' :: joinNl (lmid :: lq) :=
      joinNl_append lp (lmid :: lq) hlp (by simp)
    obtain ⟨z, hz⟩ := joinNl_cons_exists lmid lq
    obtain ⟨-, -, -, -, z', hz'⟩ := parseEntry_props hpe
    have hmin := extract_fm_min hx (joinNl lp) (joinNl (lmid :: lq))
      (by rw [hfm, hjoin]) (w ++ (':' :: z' ++ z))
    apply hmin
    rw [hz, hz', hw]
    simp

theorem encVal_ne_nil (v : Value) : encVal v ≠ [] := by
  cases v with
  | vstr s => simp [encVal]
  | vbool b => cases b <;> decide

theorem entryLine_ne_nil (e : List Char × Value) : entryLine e ≠ [] := by
  simp [entryLine]

theorem getLast?_cons_ne {c : Char} {z : List Char} (h : z ≠ []) :
    (c :: z).getLast? = z.getLast? := by
  cases z with
  | nil => exact absurd rfl h
  | cons w ws => rw [List.getLast?_cons_cons]

theorem head?_append_ne {l z : List Char} (h : l ≠ []) :
    (l ++ z).head? = l.head? := by
  cases l with
  | nil => exact absurd rfl h
  | cons c cs => rfl

theorem entryLine_no_nl {e : List Char × Value} (h : wfEntry e) :
    '\n' ∉ entryLine e := by
  obtain ⟨-, hnl, -, -, hv⟩ := h
  simp only [entryLine]
  intro hmem
  rcases List.mem_append.mp hmem with h1 | h2
  · exact hnl h1
  · rcases List.mem_cons.mp h2 with heq | h3
    · exact absurd heq (by decide)
    · rcases List.mem_cons.mp h3 with heq | h4
      · exact absurd heq (by decide)
      · exact encVal_no_nl hv h4

theorem entryLine_head {e : List Char × Value} (h : wfEntry e) :
    ∀ c, (entryLine e).head? = some c → isSpace c = false := by
  intro c hc
  obtain ⟨-, -, hh, -, -⟩ := h
  cases he1 : e.1 with
  | nil =>
    rw [entryLine, he1] at hc
    simp only [List.nil_append, List.head?_cons, Option.some.injEq] at hc
    subst hc
    decide
  | cons k0 k2 =>
    rw [entryLine, he1] at hc
    simp only [List.cons_append, List.head?_cons, Option.some.injEq] at hc
    subst hc
    rw [he1] at hh
    simp only [List.head?_cons, Option.all_some, Bool.not_eq_true'] at hh
    exact hh

theorem entryLine_getLast (e : List Char × Value) :
    (entryLine e).getLast? = some quoteC ∨ (entryLine e).getLast? = some 'e' := by
  have h1 : (entryLine e).getLast? = (encVal e.2).getLast? := by
    rw [entryLine, List.getLast?_append]
    rw [getLast?_cons_ne (by simp [encVal_ne_nil]), getLast?_cons_ne (encVal_ne_nil e.2)]
    rcases encVal_getLast e.2 with h | h <;> rw [h] <;> rfl
  rw [h1]
  exact encVal_getLast e.2

theorem entryLine_has_colon (e : List Char × Value) : ':' ∈ entryLine e := by
  simp [entryLine]

theorem pyStrip_append_nl {l : List Char} (h0 : l ≠ [])
    (hh : ∀ c, l.head? = some c → isSpace c = false)
    (hl : ∀ c, l.getLast? = some c → isSpace c = false) :
    pyStrip (l ++ ['\n']) = l := by
  obtain ⟨c0, l2, rfl⟩ : ∃ c0 l2, l = c0 :: l2 := by
    cases l with
    | nil => exact absurd rfl h0
    | cons c0 l2 => exact ⟨c0, l2, rfl⟩
  have hc0 : isSpace c0 = false := hh c0 rfl
  have h1 : ((c0 :: l2) ++ ['\n']).dropWhile isSpace = (c0 :: l2) ++ ['\n'] := by
    rw [List.cons_append, List.dropWhile_cons, hc0]
    simp
  rw [pyStrip, h1, dropTrailSpace, List.reverse_append]
  rw [show List.reverse ['\n'] = ['\n'] from rfl]
  show (('\n' :: (c0 :: l2).reverse).dropWhile isSpace).reverse = c0 :: l2
  rw [List.dropWhile_cons, show isSpace '\n' = true from rfl]
  simp only [if_true]
  obtain ⟨r0, rev2, hrev⟩ : ∃ r0 rev2, (c0 :: l2).reverse = r0 :: rev2 := by
    cases hr : (c0 :: l2).reverse with
    | nil => exact absurd hr (by simp)
    | cons a b => exact ⟨a, b, rfl⟩
  have hr0 : isSpace r0 = false := by
    apply hl
    rw [← List.head?_reverse, hrev]
    rfl
  rw [hrev, List.dropWhile_cons, hr0]
  simp only [Bool.false_eq_true, if_false]
  rw [← hrev, List.reverse_reverse]

theorem pyStrip_encode {m : List (List Char × Value)} (hm : m ≠ [])
    (hwf : ∀ e ∈ m, wfEntry e) :
    pyStrip (encodeYaml m) = joinNl (m.map entryLine) := by
  rw [encodeYaml, if_neg hm]
  obtain ⟨e0, m2, rfl⟩ : ∃ e0 m2, m = e0 :: m2 := by
    cases m with
    | nil => exact absurd rfl hm
    | cons e0 m2 => exact ⟨e0, m2, rfl⟩
  apply pyStrip_append_nl
  · exact joinNl_ne_nil _ _ (entryLine_ne_nil e0)
  · intro c hc
    obtain ⟨z, hz⟩ := joinNl_cons_exists (entryLine e0) (m2.map entryLine)
    rw [show (e0 :: m2).map entryLine = entryLine e0 :: m2.map entryLine from rfl,
      hz, head?_append_ne (entryLine_ne_nil e0)] at hc
    exact entryLine_head (hwf e0 (List.mem_cons_self _ _)) c hc
  · intro c hc
    have hmem := List.getLast_mem (show e0 :: m2 ≠ [] by simp)
    have hlast : ((e0 :: m2).map entryLine).getLast? =
        some (entryLine ((e0 :: m2).getLast (by simp))) := by
      rw [List.getLast?_map, List.getLast?_eq_getLast (e0 :: m2) (by simp)]
      rfl
    have h1 := joinNl_getLast ((e0 :: m2).map entryLine) (by simp)
      (fun x hx => by
        obtain ⟨e, he, rfl⟩ := List.mem_map.mp hx
        exact entryLine_ne_nil e)
      (entryLine ((e0 :: m2).getLast (by simp))) hlast
    rw [h1] at hc
    rcases entryLine_getLast ((e0 :: m2).getLast (by simp)) with h | h <;>
      rw [h] at hc <;> injection hc with hc <;> subst hc <;> decide

theorem decode_encode_roundTrip {m : List (List Char × Value)} (hm : m ≠ [])
    (hwf : ∀ e ∈ m, wfEntry e) (hnd : (m.map Prod.fst).Nodup) :
    decodeYaml (pyStrip (encodeYaml m)) = some (Data.dMap m) := by
  rw [pyStrip_encode hm hwf]
  obtain ⟨e0, m2, rfl⟩ : ∃ e0 m2, m = e0 :: m2 := by
    cases m with
    | nil => exact absurd rfl hm
    | cons e0 m2 => exact ⟨e0, m2, rfl⟩
  have hlines_nn : ∀ l ∈ (e0 :: m2).map entryLine, '\n' ∉ l := fun l hl => by
    obtain ⟨e, he, rfl⟩ := List.mem_map.mp hl
    exact entryLine_no_nl (hwf e he)
  have hne : joinNl ((e0 :: m2).map entryLine) ≠ [] :=
    joinNl_ne_nil _ _ (entryLine_ne_nil e0)
  have hnbrace : joinNl ((e0 :: m2).map entryLine) ≠ ['{', '}'] := by
    intro heq
    have hcolon : ':' ∈ joinNl ((e0 :: m2).map entryLine) := by
      obtain ⟨z, hz⟩ := joinNl_cons_exists (entryLine e0) (m2.map entryLine)
      rw [show (e0 :: m2).map entryLine = entryLine e0 :: m2.map entryLine from rfl, hz]
      exact List.mem_append_left _ (entryLine_has_colon e0)
    rw [heq] at hcolon
    exact absurd hcolon (by decide)
  rw [decodeYaml, if_neg hne, if_neg hnbrace,
    split_join ((e0 :: m2).map entryLine) (by simp) hlines_nn,
    parseLines_map (fun e he => parseEntry_entryLine (hwf e he))]
  show (if (((e0 :: m2).map Prod.fst).Nodup) then some (Data.dMap (e0 :: m2)) else none) =
      some (Data.dMap (e0 :: m2))
  rw [if_pos hnd]

theorem lookup_removeKey_self (k : List Char) :
    ∀ m, lookupKey k (removeKey k m) = none
  | [] => rfl
  | e :: t => by
    by_cases he : e.1 = k
    · have h1 : removeKey k (e :: t) = removeKey k t := by
        simp [removeKey, List.filter_cons, he]
      rw [h1]
      exact lookup_removeKey_self k t
    · have h1 : removeKey k (e :: t) = e :: removeKey k t := by
        simp [removeKey, List.filter_cons, he]
      rw [h1, lookupKey, if_neg he]
      exact lookup_removeKey_self k t

theorem lookup_removeKey_ne (k k2 : List Char) (hne : k2 ≠ k) :
    ∀ m, lookupKey k2 (removeKey k m) = lookupKey k2 m
  | [] => rfl
  | e :: t => by
    by_cases he : e.1 = k
    · have h1 : removeKey k (e :: t) = removeKey k t := by
        simp [removeKey, List.filter_cons, he]
      have h2 : e.1 ≠ k2 := by
        rw [he]
        exact fun hh => hne hh.symm
      rw [h1, lookup_removeKey_ne k k2 hne t, lookupKey, if_neg h2]
    · have h1 : removeKey k (e :: t) = e :: removeKey k t := by
        simp [removeKey, List.filter_cons, he]
      rw [h1]
      simp only [lookupKey]
      by_cases he2 : e.1 = k2
      · rw [if_pos he2, if_pos he2]
      · rw [if_neg he2, if_neg he2]
        exact lookup_removeKey_ne k k2 hne t

theorem editData_cases (m : List (List Char × Value)) :
    (editData m).1 =
      (if hasKey catsK (if hasKey tagsK m = true then removeKey tagsK m else m) = true
       then removeKey catsK (if hasKey tagsK m = true then removeKey tagsK m else m)
       else if hasKey tagsK m = true then removeKey tagsK m else m) ∧
    (editData m).2 = (hasKey tagsK m ||
      hasKey catsK (if hasKey tagsK m = true then removeKey tagsK m else m)) := by
  constructor <;> rfl

theorem editData_no_keys (m : List (List Char × Value)) :
    lookupKey tagsK (editData m).1 = none ∧ lookupKey catsK (editData m).1 = none := by
  obtain ⟨h1, -⟩ := editData_cases m
  have htags : lookupKey tagsK (if hasKey tagsK m = true then removeKey tagsK m else m) = none := by
    by_cases hT : hasKey tagsK m = true
    · rw [if_pos hT]
      exact lookup_removeKey_self tagsK m
    · rw [if_neg hT]
      cases hl : lookupKey tagsK m with
      | none => rfl
      | some v => exact absurd (by simp [hasKey, hl]) hT
  rw [h1]
  set m1 := (if hasKey tagsK m = true then removeKey tagsK m else m) with hm1
  by_cases hC : hasKey catsK m1 = true
  · rw [if_pos hC]
    refine ⟨?_, lookup_removeKey_self catsK m1⟩
    rw [lookup_removeKey_ne catsK tagsK (by decide)]
    exact htags
  · rw [if_neg hC]
    refine ⟨htags, ?_⟩
    cases hl : lookupKey catsK m1 with
    | none => rfl
    | some v => exact absurd (by simp [hasKey, hl]) hC

theorem editData_lookup_other (m : List (List Char × Value)) (k : List Char)
    (h1 : k ≠ tagsK) (h2 : k ≠ catsK) :
    lookupKey k (editData m).1 = lookupKey k m := by
  obtain ⟨hf, -⟩ := editData_cases m
  rw [hf]
  set m1 := (if hasKey tagsK m = true then removeKey tagsK m else m) with hm1
  have step1 : lookupKey k m1 = lookupKey k m := by
    rw [hm1]
    by_cases hT : hasKey tagsK m = true
    · rw [if_pos hT]
      exact lookup_removeKey_ne tagsK k h1 m
    · rw [if_neg hT]
  by_cases hC : hasKey catsK m1 = true
  · rw [if_pos hC, lookup_removeKey_ne catsK k h2, step1]
  · rw [if_neg hC]
    exact step1

theorem editData_flag_false (m : List (List Char × Value))
    (ht : lookupKey tagsK m = none) (hc : lookupKey catsK m = none) :
    (editData m).2 = false := by
  obtain ⟨-, hs⟩ := editData_cases m
  rw [hs]
  simp [hasKey, ht, hc]

theorem removeKey_sub (k : List Char) (m : List (List Char × Value)) :
    List.Sublist (removeKey k m) m :=
  List.filter_sublist m

theorem editData_sub (m : List (List Char × Value)) :
    List.Sublist (editData m).1 m := by
  obtain ⟨hf, -⟩ := editData_cases m
  rw [hf]
  set m1 := (if hasKey tagsK m = true then removeKey tagsK m else m) with hm1
  have hm1s : List.Sublist m1 m := by
    rw [hm1]
    by_cases hT : hasKey tagsK m = true
    · rw [if_pos hT]
      exact removeKey_sub tagsK m
    · rw [if_neg hT]
  by_cases hC : hasKey catsK m1 = true
  · rw [if_pos hC]
    exact (removeKey_sub catsK m1).trans hm1s
  · rw [if_neg hC]
    exact hm1s

theorem tail_mem_filter {p : (List Char × Value) → Bool} :
    ∀ (m : List (List Char × Value)) x, x ∈ (m.filter p).tail → x ∈ m.tail
  | [], x, h => by simp at h
  | m0 :: mt, x, h => by
    by_cases hp : p m0 = true
    · rw [List.filter_cons, if_pos hp] at h
      simp only [List.tail_cons] at h ⊢
      exact List.mem_of_mem_filter h
    · rw [List.filter_cons, if_neg hp] at h
      simp only [List.tail_cons]
      exact List.mem_of_mem_filter (List.mem_of_mem_tail h)

theorem editData_tail_mem (m : List (List Char × Value)) :
    ∀ x ∈ (editData m).1.tail, x ∈ m.tail := by
  obtain ⟨hf, -⟩ := editData_cases m
  rw [hf]
  set m1 := (if hasKey tagsK m = true then removeKey tagsK m else m) with hm1
  have step : ∀ x, x ∈ m1.tail → x ∈ m.tail := by
    intro x hx
    rw [hm1] at hx
    revert hx
    by_cases hT : hasKey tagsK m = true
    · rw [if_pos hT]
      exact tail_mem_filter m x
    · rw [if_neg hT]
      exact id
  intro x hx
  by_cases hC : hasKey catsK m1 = true
  · rw [if_pos hC] at hx
    exact step x (tail_mem_filter m1 x hx)
  · rw [if_neg hC] at hx
    exact step x hx

theorem entryLine_not_delim {e : List Char × Value} {d : List Char}
    (hd : d = dashes ∨ d = pluses) (hk : ∀ w, e.1 ≠ d ++ w) (_hcol : ':' ∉ e.1) :
    ∀ X u, entryLine e ++ X ≠ d ++ u := by
  obtain ⟨d1, d2, d3, hd3, hne1, hne2, hne3⟩ :
      ∃ d1 d2 d3, d = [d1, d2, d3] ∧ d1 ≠ ':' ∧ d2 ≠ ':' ∧ d3 ≠ ':' := by
    rcases hd with rfl | rfl
    · exact ⟨'-', '-', '-', rfl, by decide, by decide, by decide⟩
    · exact ⟨'+', '+', '+', rfl, by decide, by decide, by decide⟩
  subst hd3
  intro X u heq
  cases he : e.1 with
  | nil =>
    rw [entryLine, he] at heq
    simp only [List.cons_append, List.nil_append, List.singleton_append,
      List.append_assoc, List.cons.injEq] at heq
    exact hne1 heq.1.symm
  | cons c1 k1 =>
    cases k1 with
    | nil =>
      rw [entryLine, he] at heq
      simp only [List.cons_append, List.nil_append, List.singleton_append,
        List.append_assoc, List.cons.injEq] at heq
      exact hne2 heq.2.1.symm
    | cons c2 k2 =>
      cases k2 with
      | nil =>
        rw [entryLine, he] at heq
        simp only [List.cons_append, List.nil_append, List.singleton_append,
          List.append_assoc, List.cons.injEq] at heq
        exact hne3 heq.2.2.1.symm
      | cons c3 k3 =>
        rw [entryLine, he] at heq
        simp only [List.cons_append, List.nil_append, List.singleton_append,
          List.append_assoc, List.cons.injEq] at heq
        obtain ⟨h1, h2, h3, -⟩ := heq
        exact hk k3 (by rw [he, h1, h2, h3]; rfl)

theorem map_split {f : (List Char × Value) → List Char} :
    ∀ {m : List (List Char × Value)} {p l q}, m.map f = p ++ l :: q →
      ∃ mp e mq, m = mp ++ e :: mq ∧ f e = l ∧ mp.length = p.length := by
  intro m
  induction m with
  | nil =>
    intro p l q h
    simp at h
  | cons e0 m2 ih =>
    intro p l q h
    cases p with
    | nil =>
      simp only [List.map_cons, List.nil_append, List.cons.injEq] at h
      exact ⟨[], e0, m2, rfl, h.1, rfl⟩
    | cons p0 p2 =>
      simp only [List.map_cons, List.cons_append, List.cons.injEq] at h
      obtain ⟨-, h2⟩ := h
      obtain ⟨mp, e, mq, hm2, hfe, hlen⟩ := ih h2
      exact ⟨e0 :: mp, e, mq, by rw [hm2]; rfl, hfe, by simp [hlen]⟩

theorem rebuilt_no_close {m : List (List Char × Value)} {d body : List Char}
    (hd : d = dashes ∨ d = pluses)
    (hwf : ∀ e ∈ m, wfEntry e)
    (hkeys : ∀ x ∈ m.tail, ∀ w, x.1 ≠ d ++ w)
    (hm : m ≠ []) :
    ∀ a y, joinNl (m.map entryLine) = a ++ '\n' :: y →
      ∀ u, y ++ '\n' :: (d ++ body) ≠ d ++ u := by
  intro a y hsplit u heq
  have hnn : ∀ l ∈ m.map entryLine, '\n' ∉ l := fun l hl => by
    obtain ⟨e, he, rfl⟩ := List.mem_map.mp hl
    exact entryLine_no_nl (hwf e he)
  obtain ⟨p, l, q, hlq, hp, z, hz⟩ :=
    joinNl_split_nl (m.map entryLine) (by simp [hm]) hnn a y hsplit
  obtain ⟨mp, e, mq, hmsplit, hfe, hlen⟩ := map_split hlq
  have hp2 : mp ≠ [] := by
    intro h0
    rw [h0] at hlen
    exact hp (List.length_eq_zero.mp hlen.symm)
  have he_tail : e ∈ m.tail := by
    cases mp with
    | nil => exact absurd rfl hp2
    | cons a0 as =>
      rw [hmsplit]
      show e ∈ as ++ e :: mq
      exact List.mem_append_right _ (List.mem_cons_self _ _)
  have hknd := hkeys e he_tail
  have hcol : ':' ∉ e.1 := (hwf e (List.mem_of_mem_tail he_tail)).1
  apply entryLine_not_delim hd hknd hcol (z ++ '\n' :: (d ++ body)) u
  rw [← List.append_assoc, hfe, ← hz, heq]

theorem joinNl_entry_getLast {m : List (List Char × Value)} (hm : m ≠ []) :
    (joinNl (m.map entryLine)).getLast? ≠ some '\r' := by
  obtain ⟨e0, m2, rfl⟩ : ∃ e0 m2, m = e0 :: m2 := by
    cases m with
    | nil => exact absurd rfl hm
    | cons e0 m2 => exact ⟨e0, m2, rfl⟩
  intro hlast
  have hlast2 : ((e0 :: m2).map entryLine).getLast? =
      some (entryLine ((e0 :: m2).getLast (by simp))) := by
    rw [List.getLast?_map, List.getLast?_eq_getLast _ (by simp)]
    rfl
  have h1 := joinNl_getLast ((e0 :: m2).map entryLine) (by simp)
    (fun x hx => by
      obtain ⟨e, he, rfl⟩ := List.mem_map.mp hx
      exact entryLine_ne_nil e) _ hlast2
  rw [h1] at hlast
  rcases entryLine_getLast ((e0 :: m2).getLast (by simp)) with h | h <;>
    rw [h] at hlast <;> injection hlast with hx <;> exact absurd hx (by decide)

theorem extract_rebuilt (body : List Char) {d : List Char}
    {m : List (List Char × Value)}
    (hd : d = dashes ∨ d = pluses)
    (hwf : ∀ e ∈ m, wfEntry e)
    (hkeys : ∀ x ∈ m.tail, ∀ w, x.1 ≠ d ++ w) :
    extract_frontmatter (d ++ '\n' :: (pyStrip (encodeYaml m) ++ '\n' :: (d ++ body))) =
      (some (pyStrip (encodeYaml m)), body, some d, some Fmt.yaml) := by
  have hmb : matchBlock d (d ++ '\n' :: (pyStrip (encodeYaml m) ++ '\n' :: (d ++ body))) =
      some (pyStrip (encodeYaml m), body) := by
    rw [matchBlock]
    have hdl : delimNl? d (d ++ '\n' :: (pyStrip (encodeYaml m) ++ '\n' :: (d ++ body))) =
        some (pyStrip (encodeYaml m) ++ '\n' :: (d ++ body)) :=
      delimNl?_of_decomp (Or.inl rfl)
    rw [hdl]
    by_cases hm : m = []
    · subst hm
      have hs : pyStrip (encodeYaml ([] : List (List Char × Value))) = ['{', '}'] := by
        decide
      rw [hs]
      apply findClose_boundary
      · intro a y hay u hu
        rcases a with _ | ⟨a1, _ | ⟨a2, a3⟩⟩ <;> simp at hay
      · decide
    · rw [pyStrip_encode hm hwf]
      apply findClose_boundary
      · exact rebuilt_no_close hd hwf hkeys hm
      · exact joinNl_entry_getLast hm
  rcases hd with rfl | rfl
  · simp only [extract_frontmatter, hmb]
  · have hnone : matchBlock dashes
        (pluses ++ '\n' :: (pyStrip (encodeYaml m) ++ '\n' :: (pluses ++ body))) = none :=
      matchBlock_dashes_on_pluses _
    simp only [extract_frontmatter, hnone, hmb]

theorem processFile_rebuilt_skip {c nc : List Char}
    (h : processFile c = Outcome.modified nc) : processFile nc = Outcome.skipped := by
  obtain ⟨fm, body, d, m, hd, he, hdec, hflag, hnc⟩ := processFile_modified_inv h
  have hwfm := decodeYaml_entries_wf hdec
  have hwf_em : ∀ e ∈ (editData m).1, wfEntry e := fun e hee =>
    hwfm e ((editData_sub m).subset hee)
  have hkeys_em : ∀ x ∈ (editData m).1.tail, ∀ w, x.1 ≠ d ++ w := fun x hx w =>
    decode_tail_keys he hdec x (editData_tail_mem m x hx) w
  have hx2 := extract_rebuilt body hd hwf_em hkeys_em
  rw [← hnc] at hx2
  by_cases hem : (editData m).1 = []
  · have hdec2 : decodeYaml (pyStrip (encodeYaml (editData m).1)) = some (Data.dMap []) := by
      rw [hem]
      decide
    simp only [processFile, hx2, decodeFor, hdec2]
    rw [if_neg (by decide)]
  · have hnd_em : ((editData m).1.map Prod.fst).Nodup :=
      (decodeYaml_nodup hdec).sublist ((editData_sub m).map Prod.fst)
    have hdec2 := decode_encode_roundTrip hem hwf_em hnd_em
    have hedit := editData_no_keys m
    have hflag2 : (editData (editData m).1).2 = false :=
      editData_flag_false _ hedit.1 hedit.2
    simp only [processFile, hx2, decodeFor, hdec2]
    rw [if_neg (by rw [hflag2]; simp)]

theorem second_run_fixed (c : List Char) :
    fileAfter (fileAfter c) = fileAfter c ∧
    outcomeDelta (processFile (fileAfter c)) = 0 := by
  cases hp : processFile c with
  | skipped =>
    have hfa : fileAfter c = c := by simp only [fileAfter, hp]
    rw [hfa]
    exact ⟨by simp only [fileAfter, hp], by simp only [hp, outcomeDelta]⟩
  | error =>
    have hfa : fileAfter c = c := by simp only [fileAfter, hp]
    rw [hfa]
    exact ⟨by simp only [fileAfter, hp], by simp only [hp, outcomeDelta]⟩
  | modified nc =>
    have hfa : fileAfter c = nc := by simp only [fileAfter, hp]
    have hskip := processFile_rebuilt_skip hp
    rw [hfa]
    exact ⟨by simp only [fileAfter, hskip], by simp only [hskip, outcomeDelta]⟩

theorem clean_fst (files : List (List Char)) :
    (clean_frontmatter files).1 = files.map fileAfter := by
  induction files with
  | nil => rfl
  | cons c cs ih => simp [clean_frontmatter, ih]

/-- C4: running the tool twice on the same directory is idempotent — the
second run leaves every file's content identical to its content after the
first run, and the second run's modified count is 0. -/
theorem c4_idempotent (files : List (List Char)) :
    clean_frontmatter (clean_frontmatter files).1 = ((clean_frontmatter files).1, 0) := by
  rw [clean_fst]
  induction files with
  | nil => rfl
  | cons c cs ih =>
    show clean_frontmatter (fileAfter c :: cs.map fileAfter) =
      (fileAfter c :: cs.map fileAfter, 0)
    obtain ⟨h1, h2⟩ := second_run_fixed c
    simp only [clean_frontmatter, ih, h1, h2, Prod.mk.injEq]

theorem modified_changes {c nc : List Char}
    (h : processFile c = Outcome.modified nc) : nc ≠ c := by
  intro heq
  obtain ⟨fm, body, d, m, hd, he, hflagdec, hflag, hnc⟩ := processFile_modified_inv h
  have hdec := hflagdec
  have hwfm := decodeYaml_entries_wf hdec
  have hwf_em : ∀ e ∈ (editData m).1, wfEntry e := fun e hee =>
    hwfm e ((editData_sub m).subset hee)
  have hkeys_em : ∀ x ∈ (editData m).1.tail, ∀ w, x.1 ≠ d ++ w := fun x hx w =>
    decode_tail_keys he hdec x (editData_tail_mem m x hx) w
  have hx2 := extract_rebuilt body hd hwf_em hkeys_em
  rw [← hnc, heq, he] at hx2
  simp only [Prod.mk.injEq, Option.some.injEq] at hx2
  obtain ⟨hfm_eq, -, -, -⟩ := hx2
  by_cases hem : (editData m).1 = []
  · have hdec2 : decodeYaml (pyStrip (encodeYaml (editData m).1)) = some (Data.dMap []) := by
      rw [hem]
      decide
    rw [← hfm_eq, hdec] at hdec2
    simp only [Option.some.injEq, Data.dMap.injEq] at hdec2
    subst hdec2
    exact absurd hflag (by decide)
  · have hnd_em : ((editData m).1.map Prod.fst).Nodup :=
      (decodeYaml_nodup hdec).sublist ((editData_sub m).map Prod.fst)
    have hdec2 := decode_encode_roundTrip hem hwf_em hnd_em
    rw [← hfm_eq, hdec] at hdec2
    simp only [Option.some.injEq, Data.dMap.injEq] at hdec2
    have hnone := editData_no_keys m
    have hflag2 : (editData m).2 = false := by
      apply editData_flag_false
      · rw [hdec2]
        exact hnone.1
      · rw [hdec2]
        exact hnone.2
    rw [hflag2] at hflag
    cases hflag

/-- Number of positions at which the after-run content differs from the
original content. -/
def countChanged (before after : List (List Char)) : Nat :=
  (before.zip after).countP (fun p => decide (p.1 ≠ p.2))

theorem delta_eq_changed (c : List Char) :
    outcomeDelta (processFile c) = if fileAfter c ≠ c then 1 else 0 := by
  cases hp : processFile c with
  | skipped => simp [fileAfter, hp, outcomeDelta]
  | error => simp [fileAfter, hp, outcomeDelta]
  | modified nc =>
    have hne := modified_changes hp
    simp [fileAfter, hp, outcomeDelta, hne]

/-- C9: the integer returned by the run counts exactly the files whose
content changed on disk: one per write, none for skipped or error outcomes,
and no write ever produces content equal to what the file held before. -/
theorem c9_count_exact :
    (∀ files, (clean_frontmatter files).2 =
      countChanged files (clean_frontmatter files).1) ∧
    (∀ c nc, processFile c = Outcome.modified nc → nc ≠ c) := by
  constructor
  · intro files
    induction files with
    | nil => rfl
    | cons c cs ih =>
      show outcomeDelta (processFile c) + (clean_frontmatter cs).2 =
        countChanged (c :: cs) (fileAfter c :: (clean_frontmatter cs).1)
      rw [countChanged, List.zip_cons_cons, List.countP_cons]
      rw [show (List.countP (fun p => decide (p.1 ≠ p.2))
          (cs.zip (clean_frontmatter cs).1)) =
        countChanged cs (clean_frontmatter cs).1 from rfl, ← ih]
      rw [delta_eq_changed c]
      by_cases hh : fileAfter c = c
      · simp [hh]
      · have hh2 : c ≠ fileAfter c := fun x => hh x.symm
        simp [hh, hh2]
        omega
  · exact fun c nc h => modified_changes h

theorem c9_count_exact_witness :
    processFile
      ['-', '-', '-', '\n', 't', 'i', 't', 'l', 'e', ':', ' ', quoteC, 'x', quoteC, '\n',
       't', 'a', 'g', 's', ':', ' ', quoteC, 'a', quoteC, '\n', '-', '-', '-', '\n', 'B'] =
      Outcome.modified
        ['-', '-', '-', '\n', 't', 'i', 't', 'l', 'e', ':', ' ', quoteC, 'x', quoteC, '\n',
         '-', '-', '-', '\n', 'B'] ∧
    ['-', '-', '-', '\n', 't', 'i', 't', 'l', 'e', ':', ' ', quoteC, 'x', quoteC, '\n',
     '-', '-', '-', '\n', 'B'] ≠
      ['-', '-', '-', '\n', 't', 'i', 't', 'l', 'e', ':', ' ', quoteC, 'x', quoteC, '\n',
       't', 'a', 'g', 's', ':', ' ', quoteC, 'a', quoteC, '\n', '-', '-', '-', '\n', 'B'] :=
  ⟨by decide,
   c9_count_exact.2
     ['-', '-', '-', '\n', 't', 'i', 't', 'l', 'e', ':', ' ', quoteC, 'x', quoteC, '\n',
      't', 'a', 'g', 's', ':', ' ', quoteC, 'a', quoteC, '\n', '-', '-', '-', '\n', 'B']
     ['-', '-', '-', '\n', 't', 'i', 't', 'l', 'e', ':', ' ', quoteC, 'x', quoteC, '\n',
      '-', '-', '-', '\n', 'B']
     (by decide)⟩

/-- C3: when the decoded front matter is a mapping containing `tags` and/or
`categories`, the file is rewritten; the rewritten file's front matter
decodes to a mapping without `tags` and `categories` in which every other
key is bound to the same value as in the original mapping. -/
theorem c3_keys_removed (c fm body d : List Char) (f : Fmt)
    (m : List (List Char × Value))
    (hx : extract_frontmatter c = (some fm, body, some d, some f))
    (hdec : decodeFor f fm = some (Data.dMap m))
    (hpresent : lookupKey tagsK m ≠ none ∨ lookupKey catsK m ≠ none) :
    ∃ nc fm2 m2, processFile c = Outcome.modified nc ∧
      extract_frontmatter nc = (some fm2, body, some d, some Fmt.yaml) ∧
      decodeYaml fm2 = some (Data.dMap m2) ∧
      lookupKey tagsK m2 = none ∧ lookupKey catsK m2 = none ∧
      (∀ k, k ≠ tagsK → k ≠ catsK → lookupKey k m2 = lookupKey k m) := by
  have hf : f = Fmt.yaml := (extract_success_inv hx).1
  subst hf
  have hd : d = dashes ∨ d = pluses := (extract_success_inv hx).2.1
  have hdecy : decodeYaml fm = some (Data.dMap m) := hdec
  have hT_or : hasKey tagsK m = true ∨ hasKey catsK m = true := by
    rcases hpresent with hp | hp
    · left
      cases hl : lookupKey tagsK m with
      | none => exact absurd hl hp
      | some v => simp [hasKey, hl]
    · right
      cases hl : lookupKey catsK m with
      | none => exact absurd hl hp
      | some v => simp [hasKey, hl]
  have hflag : (editData m).2 = true := by
    obtain ⟨-, hs⟩ := editData_cases m
    rw [hs]
    rcases hT_or with h | h
    · rw [h]
      rfl
    · have h2 : hasKey catsK (if hasKey tagsK m = true then removeKey tagsK m else m) = true := by
        by_cases hT : hasKey tagsK m = true
        · rw [if_pos hT]
          simpa [hasKey, lookup_removeKey_ne tagsK catsK (by decide) m] using h
        · rw [if_neg hT]
          exact h
      rw [h2]
      simp
  have hp : processFile c = Outcome.modified
      (d ++ '\n' :: (pyStrip (encodeYaml (editData m).1) ++ '\n' :: (d ++ body))) := by
    simp only [processFile, hx, decodeFor, hdecy, encodeFor]
    rw [if_pos hflag]
  have hwfm := decodeYaml_entries_wf hdecy
  have hwf_em : ∀ e ∈ (editData m).1, wfEntry e := fun e hee =>
    hwfm e ((editData_sub m).subset hee)
  have hkeys_em : ∀ x ∈ (editData m).1.tail, ∀ w, x.1 ≠ d ++ w := fun x hxm w =>
    decode_tail_keys hx hdecy x (editData_tail_mem m x hxm) w
  have hx2 := extract_rebuilt body hd hwf_em hkeys_em
  by_cases hem : (editData m).1 = []
  · refine ⟨_, pyStrip (encodeYaml (editData m).1), [], hp, hx2, ?_, rfl, rfl, ?_⟩
    · rw [hem]
      decide
    · intro k h1 h2
      rw [show lookupKey k ([] : List (List Char × Value)) =
          lookupKey k (editData m).1 by rw [hem]]
      exact editData_lookup_other m k h1 h2
  · have hnd_em : ((editData m).1.map Prod.fst).Nodup :=
      (decodeYaml_nodup hdecy).sublist ((editData_sub m).map Prod.fst)
    have hdec2 := decode_encode_roundTrip hem hwf_em hnd_em
    have hedit := editData_no_keys m
    exact ⟨_, pyStrip (encodeYaml (editData m).1), (editData m).1, hp, hx2, hdec2,
      hedit.1, hedit.2, fun k h1 h2 => editData_lookup_other m k h1 h2⟩

theorem c3_keys_removed_witness :
    ∃ nc fm2 m2,
      processFile ['-', '-', '-', '\n', 't', 'a', 'g', 's', ':', ' ', quoteC, 'x', quoteC,
        '\n', 'a', ':', ' ', quoteC, 'y', quoteC, '\n', '-', '-', '-', '\n', 'B'] =
        Outcome.modified nc ∧
      extract_frontmatter nc = (some fm2, ['\n', 'B'], some dashes, some Fmt.yaml) ∧
      decodeYaml fm2 = some (Data.dMap m2) ∧
      lookupKey tagsK m2 = none ∧ lookupKey catsK m2 = none ∧
      (∀ k, k ≠ tagsK → k ≠ catsK →
        lookupKey k m2 = lookupKey k [(tagsK, Value.vstr ['x']), (['a'], Value.vstr ['y'])]) :=
  c3_keys_removed
    ['-', '-', '-', '\n', 't', 'a', 'g', 's', ':', ' ', quoteC, 'x', quoteC,
     '\n', 'a', ':', ' ', quoteC, 'y', quoteC, '\n', '-', '-', '-', '\n', 'B']
    ['t', 'a', 'g', 's', ':', ' ', quoteC, 'x', quoteC, '\n', 'a', ':', ' ', quoteC, 'y', quoteC]
    ['\n', 'B'] dashes Fmt.yaml
    [(tagsK, Value.vstr ['x']), (['a'], Value.vstr ['y'])]
    (by decide) (by decide) (Or.inl (by decide))
